import Mathlib

/-!
Verification development for the swagger-to-flowtype generator
(`src/index.js`).  The schema-to-type synthesis engine is embedded
shallowly: JavaScript objects holding schema fragments become the
inductive `Schema`, the dynamic values produced by `propertiesList`
become `PropRes`, strings stay `String`, and a thrown `TypeError`
is modelled as `Except.error ()`.  A JavaScript value that may be
`undefined` is modelled as an `Option`.  Braces inside string literals
are written with the escapes `\x7b` and `\x7d`.
-/

namespace S2F

/-- Configuration flags read (in the source) from the command-line
parser singleton: `program.checkRequired` and `program.exact`. -/
structure Cfg where
  checkRequired : Bool
  exact : Bool
deriving DecidableEq, Repr

/-- Result of a synthesis step; `Except.error ()` models a thrown
JavaScript `TypeError`. -/
abbrev JsRes (α : Type) := Except Unit α

/-! ## String helpers -/

/-- Model of `s.replace(/"/g, "")` (line 180/232): delete every
double-quote character. -/
def stripQuotes (s : String) : String :=
  String.mk (s.toList.filter (fun c => c != '"'))

/-- JSON string escaping of one character, as `JSON.stringify` performs
it for the characters that can occur here: backslash and double quote
get a backslash prefix.  (Control-character escapes introduce no new
quote or brace characters and are not modelled.) -/
def jsEsc (c : Char) : List Char :=
  if c = '\\' then ['\\', '\\'] else if c = '"' then ['\\', '"'] else [c]

/-- Escape every character of a list, `JSON.stringify`-style. -/
def escList : List Char → List Char
  | [] => []
  | c :: l => jsEsc c ++ escList l

/-- Characters of a JSON-serialized string literal: quote, escaped body,
quote. -/
def jsQuoteCh (s : String) : List Char :=
  '"' :: escList s.toList ++ ['"']

/-- JSON-serialized string literal. -/
def jsQuote (s : String) : String := String.mk (jsQuoteCh s)

/-- Template-literal interpolation of a possibly-undefined value:
`undefined` prints as the text `undefined`. -/
def jsStr (o : Option String) : String := o.getD ("undefined")

/-- Truthiness of a possibly-undefined string: `undefined` and the empty
string are falsy. -/
def strTruthy : Option String → Bool
  | none => false
  | some r => r != ""

/-- Model of `stripBrackets` (line 32): `name.replace(/[[\]']+/g, "")`
removes every bracket and apostrophe character. -/
def stripBrackets (s : String) : String :=
  String.mk (s.toList.filter (fun c => !(c == '[' || c == ']' || c == Char.ofNat 39)))

/-- Model of `removeGenericsBug` (line 190): removes every `«` and `»`
character. -/
def removeGenericsBug (s : String) : String :=
  String.mk (s.toList.filter (fun c => !(c == '«' || c == '»')))

/-! ## Reference Resolver (`definitionTypeName`, lines 23-30)

The regular expression `/#\/definitions\/(.*)|#\/components\/schemas\/(.*)/`
is unanchored, its alternatives are tried left-to-right at each start
position, and `.` does not match a newline.  `found[1] || found[2]`
yields JavaScript `undefined` (modelled `none`) when the first
alternative matched with an empty capture. -/

/-- Characters of the first alternative's literal part. -/
def defsPat : List Char := String.toList ("#/definitions/")

/-- Characters of the second alternative's literal part. -/
def compPat : List Char := String.toList ("#/components/schemas/")

/-- Boolean test that `p` is an initial run of `s`. -/
def leadsWith : List Char → List Char → Bool
  | [], _ => true
  | _ :: _, [] => false
  | p :: ps, c :: cs => p == c && leadsWith ps cs

/-- Capture of a trailing `(.*)` group: everything up to the first
newline. -/
def dotStar (l : List Char) : String :=
  String.mk (l.takeWhile (fun c => c != '\n'))

/-- Which alternative of the reference regex matched, with its capture. -/
inductive RefMatch where
  | alt1 (capture : String)
  | alt2 (capture : String)
deriving DecidableEq, Repr

/-- Scan for the earliest start position at which one of the two
alternatives matches; at a given position the first alternative wins. -/
def scanRef : List Char → Option RefMatch
  | [] => none
  | c :: rest =>
    if leadsWith defsPat (c :: rest) then
      some (.alt1 (dotStar ((c :: rest).drop defsPat.length)))
    else if leadsWith compPat (c :: rest) then
      some (.alt2 (dotStar ((c :: rest).drop compPat.length)))
    else scanRef rest

/-- Model of `definitionTypeName`: no match returns the empty string;
a match returns `found[1] || found[2]`, which is `undefined` (`none`)
when alternative 1 captured the empty string. -/
def definitionTypeName (ref : String) : Option String :=
  match scanRef ref.toList with
  | none => some ("")
  | some (.alt1 cap) => if cap = "" then none else some cap
  | some (.alt2 cap) => some cap

/-! ## Exact-object rewriting (`withExact`, lines 126-129)

`property.replace(/{[^|]/g, "{|").replace(/[^|]}/g, "|}")`: each match
replaces two characters (the brace and its neighbour) by the brace plus
the `|` marker, so the neighbouring character is consumed.  Matches are
found left to right and do not overlap. -/

/-- First replace pass: a brace-open followed by a character other than
the marker becomes brace-open plus marker, consuming that character;
otherwise scanning advances one position. -/
def exOpen : List Char → List Char
  | [] => []
  | [c] => [c]
  | c :: d :: rest =>
    if c = '\x7b' ∧ d ≠ '|' then '\x7b' :: '|' :: exOpen rest
    else c :: exOpen (d :: rest)

/-- Second replace pass: a character other than the marker followed by a
brace-close becomes marker plus brace-close, consuming that character;
otherwise scanning advances one position. -/
def exClose : List Char → List Char
  | [] => []
  | [c] => [c]
  | c :: d :: rest =>
    if d = '\x7d' ∧ c ≠ '|' then '|' :: '\x7d' :: exClose rest
    else c :: exClose (d :: rest)

/-- Model of `withExact`. -/
def withExact (s : String) : String := String.mk (exClose (exOpen s.toList))

/-! ## Primitive type table (`typeMapping`, lines 11-21) -/

/-- The fixed primitive table. -/
def typeMapping (t : String) : Option String :=
  if t = "array" then some ("Array<*>")
  else if t = "boolean" then some ("boolean")
  else if t = "integer" then some ("number")
  else if t = "number" then some ("number")
  else if t = "null" then some ("null")
  else if t = "object" then some ("Object")
  else if t = "Object" then some ("Object")
  else if t = "string" then some ("string")
  else if t = "enum" then some ("string")
  else none

/-- Table lookup through a possibly-undefined `type` field. -/
def typeMappingOpt : Option String → Option String
  | none => none
  | some t => typeMapping t

/-! ## Schema nodes

A schema fragment, with exactly the fields the source reads.  An absent
field is `none`. -/

inductive Schema where
  | mk (ref : Option String) (type : Option String) (enum : Option (List String))
       (items : Option Schema) (oneOf : Option (List Schema))
       (properties : Option (List (String × Schema)))
       (required : Option (List String))
       (allOf : Option (List Schema))

def Schema.ref : Schema → Option String
  | .mk r _ _ _ _ _ _ _ => r

def Schema.type : Schema → Option String
  | .mk _ t _ _ _ _ _ _ => t

def Schema.enum : Schema → Option (List String)
  | .mk _ _ e _ _ _ _ _ => e

def Schema.items : Schema → Option Schema
  | .mk _ _ _ i _ _ _ _ => i

def Schema.oneOf : Schema → Option (List Schema)
  | .mk _ _ _ _ o _ _ _ => o

def Schema.properties : Schema → Option (List (String × Schema))
  | .mk _ _ _ _ _ p _ _ => p

def Schema.required : Schema → Option (List String)
  | .mk _ _ _ _ _ _ q _ => q

def Schema.allOf : Schema → Option (List Schema)
  | .mk _ _ _ _ _ _ _ a => a

/-! ## Property-list results

The dynamic value returned by `propertiesList`: an array (for `allOf`),
a `{ $ref: … }` marker, a bare type-expression string (possibly
`undefined`), or a property mapping whose values may be `undefined`. -/

inductive PropRes where
  | typ (s : Option String)
  | refMark (name : Option String)
  | obj (entries : List (String × Option String))
  | list (members : List PropRes)

/-! ## JSON serialization of a `PropRes` (the builtin `JSON.stringify`)

Keys with `undefined` values are omitted from objects; `undefined`
array elements serialize as `null`; `JSON.stringify(undefined)` is
`undefined` itself (`none`). -/

/-- Characters of `Array.prototype.join(",")` over serialized pieces. -/
def joinComma : List (List Char) → List Char
  | [] => []
  | [x] => x
  | x :: y :: rest => x ++ ',' :: joinComma (y :: rest)

/-- Serialized `"key":"value"` entries of an object, `undefined` values
omitted. -/
def objEntriesCh : List (String × Option String) → List (List Char)
  | [] => []
  | (_, none) :: rest => objEntriesCh rest
  | (k, some v) :: rest => (jsQuoteCh k ++ ':' :: jsQuoteCh v) :: objEntriesCh rest

mutual

def jsonStringify : PropRes → Option String
  | .typ none => none
  | .typ (some s) => some (jsQuote s)
  | .refMark none => some (String.mk ['\x7b', '\x7d'])
  | .refMark (some r) =>
      some (String.mk ('\x7b' :: (jsQuoteCh ("$ref") ++ ':' :: jsQuoteCh r) ++ ['\x7d']))
  | .obj es => some (String.mk ('\x7b' :: joinComma (objEntriesCh es) ++ ['\x7d']))
  | .list ms => some (String.mk ('[' :: joinComma (stringifyItems ms) ++ [']']))

def stringifyItems : List PropRes → List (List Char)
  | [] => []
  | m :: rest =>
    (match jsonStringify m with
     | some s => s.toList
     | none => String.toList ("null")) :: stringifyItems rest

end

/-! ## The allOf member sort (line 146)

`.sort(a => (a[0] === "&" ? 1 : -1))` uses a comparator that ignores its
second argument, which is not a consistent comparator.  This models the
observable behaviour of the V8 engine's sort for arrays of fewer than 64
elements (one binary-insertion-sorted run): an element whose first
character is `&` is kept at the end of the processed region, any other
element is moved to its front.  `undefined` elements are sorted to the
end without consulting the comparator, and `join(" ")` prints them as
the empty string. -/

/-- True when the string's first character is `&` (`a[0] === "&"`). -/
def ampHead (s : String) : Bool :=
  match s.toList with
  | '&' :: _ => true
  | _ => false

/-- One insertion step of the modelled sort. -/
def sortStep (acc : List String) (x : String) : List String :=
  if ampHead x then acc ++ [x] else x :: acc

/-- The modelled `Array.prototype.sort` with the one-argument comparator. -/
def sortJs (l : List String) : List String := l.foldl sortStep []

/-- Sort of a list that may contain `undefined` elements: those go to the
end without the comparator being called. -/
def sortJsOpt (l : List (Option String)) : List (Option String) :=
  (sortJs (l.filterMap id)).map some ++ List.replicate (l.countP (fun o => o.isNone)) none

/-- Model of `join(" ")`: `undefined` elements print as empty text. -/
def joinSp (l : List (Option String)) : String :=
  String.intercalate " " (l.map (fun o => o.getD ("")))

/-! ## Emitter (`propertiesTemplate`, lines 131-153) -/

/-- Truthiness of the `$ref` field of a `propertiesList` result. -/
def refTruthyP : PropRes → Bool
  | .refMark (some r) => r != ""
  | _ => false

/-- The `$ref` field's value when truthy. -/
def refNameP : PropRes → String
  | .refMark (some r) => r
  | _ => ""

/-- Rendering of one `allOf` member (lines 139-145): a truthy `$ref`
marker becomes an intersection operand `& Name`; anything else is
serialized, and exact-wrapped when `exact` is set.  `withExact` on an
`undefined` serialization throws. -/
def renderElem (cfg : Cfg) (p : PropRes) : JsRes (Option String) :=
  if refTruthyP p then .ok (some ("& " ++ refNameP p))
  else
    match jsonStringify p with
    | some s => .ok (some (if cfg.exact then withExact s else s))
    | none => if cfg.exact then .error () else .ok none

/-- Left-to-right rendering of every member; the first thrown error
aborts, as in `Array.prototype.map`. -/
def renderElems (cfg : Cfg) : List PropRes → JsRes (List (Option String))
  | [] => .ok []
  | m :: rest =>
    match renderElem cfg m with
    | .error e => .error e
    | .ok r =>
      match renderElems cfg rest with
      | .error e => .error e
      | .ok rs => .ok (r :: rs)

/-- Model of `propertiesTemplate`: a string is returned as is; an array
is rendered member-wise, sorted and joined with one space; any other
value is serialized (exact-wrapped when `exact` is set);
`JSON.stringify` returning `undefined` under `exact` throws inside
`withExact`. -/
def propertiesTemplate (cfg : Cfg) (p : PropRes) : JsRes (Option String) :=
  match p with
  | .typ (some s) => .ok (some s)
  | .list ms =>
    match renderElems cfg ms with
    | .error e => .error e
    | .ok rs => .ok (some (joinSp (sortJsOpt rs)))
  | other =>
    match jsonStringify other with
    | some s => .ok (some (if cfg.exact then withExact s else s))
    | none => if cfg.exact then .error () else .ok none

/-! ## Type Synthesizer and Property-List Builder
(`typeFor` lines 34-59, `propertiesList` lines 77-110,
`isRequired` lines 61-65, `propertyKeyForDefinition` lines 67-75)

`typeFor` and `propertiesList` are mutually recursive in the source;
the fueled functions below model them and `typeFor` and
`propertiesList` are projections of the fuel-instantiated pair. -/

/-- Model of `isRequired`: `definition.required &&
definition.required.indexOf(propertyName) >= 0`, which is falsy when the
`required` list is absent. -/
def isRequired (propName : String) (required : Option (List String)) : Bool :=
  match required with
  | none => false
  | some l => decide (propName ∈ l)

/-- Model of `propertyKeyForDefinition`: with `checkRequired` set the key
gets a `?` suffix unless the property is required; otherwise the bare
name. -/
def propertyKeyForDefinition (cfg : Cfg) (propName : String)
    (required : Option (List String)) : String :=
  if cfg.checkRequired then
    propName ++ (if isRequired propName required then "" else "?")
  else propName

/-- One step of `Object.assign` merging: a repeated key overwrites in
place, a new key is appended. -/
def jsAssignOne (m : List (String × Option String)) (kv : String × Option String) :
    List (String × Option String) :=
  if m.any (fun e => e.1 == kv.1) then
    m.map (fun e => if e.1 = kv.1 then kv else e)
  else m ++ [kv]

/-- Model of `Object.assign.apply(null, [{}, …])` over single-entry
objects. -/
def assignMerge (l : List (String × Option String)) : List (String × Option String) :=
  l.foldl jsAssignOne []

/-- The final line of `typeFor` (line 58):
`typeMapping[property.type] || definitionTypeName(property.$ref)`.
When the table misses and `$ref` is absent, `undefined.match` inside
`definitionTypeName` throws a `TypeError`. -/
def lastReturn (ref ty : Option String) : JsRes (Option String) :=
  match typeMappingOpt ty with
  | some t => .ok (some t)
  | none =>
    match ref with
    | none => .error ()
    | some r => .ok (definitionTypeName r)

/-- The non-array dispatch of `typeFor` (lines 55-58): the string-enum
union, else the primitive table with the `$ref` fallback. -/
def enumOrLast (ref ty : Option String) (en : Option (List String)) : JsRes (Option String) :=
  if ty = some ("string") then
    match en with
    | some vals =>
      .ok (some (String.intercalate " | " (vals.map (fun v => "'" ++ v ++ "'"))))
    | none => lastReturn ref ty
  else lastReturn ref ty


/-! A computable structural size for schema nodes and the lists and
options of them, used to instantiate the fuel of the synthesis
functions below (the auto-derived `SizeOf` of the nested inductive has
no executable code). -/

mutual

/-- Structural size of a schema node. -/
def sizeS : Schema → Nat
  | .mk _ _ _ it one props _ allOf =>
    1 + sizeOS it + sizeOL one + sizeOP props + sizeOL allOf

/-- Structural size of an optional schema node. -/
def sizeOS : Option Schema → Nat
  | none => 1
  | some s => 1 + sizeS s

/-- Structural size of an optional schema list. -/
def sizeOL : Option (List Schema) → Nat
  | none => 1
  | some l => 1 + sizeL l

/-- Structural size of a schema list. -/
def sizeL : List Schema → Nat
  | [] => 1
  | s :: rest => 1 + sizeS s + sizeL rest

/-- Structural size of an optional property map. -/
def sizeOP : Option (List (String × Schema)) → Nat
  | none => 1
  | some l => 1 + sizeP l

/-- Structural size of a property map. -/
def sizeP : List (String × Schema) → Nat
  | [] => 1
  | (_, v) :: rest => 1 + sizeS v + sizeP rest

end

/-! The two source functions are mutually recursive on schema subterms,
and `propertiesList` applies `typeFor` to its own argument in the
non-object rule, so the Lean versions compute the pair of both results
in one function `synthBF` and thread an explicit fuel argument that the
recursion is structural on.  `fuelIrrel` below shows the result does not
depend on the fuel once the fuel covers the argument's size, and the
wrappers `synthArray`, `synthBoth`, `synthMany`, `synthAlts` and
`synthProps` instantiate the fuel at exactly that size. -/

mutual

/-- The `type === "array"` branch of `typeFor` (lines 35-54), applied to
the node's `items` field: absent `items` throws (the `in` operator on
`undefined`); a `oneOf` inside items yields an array of a union; a
`$ref` inside items yields an array of the resolved name; object items
recurse through the Property-List Builder and the emitter with a quote
strip; anything else maps the items' type through the primitive table
(interpolating `undefined` on a miss). -/
def synthArrayF (cfg : Cfg) : Nat → Option Schema → JsRes (Option String)
  | 0, _ => .error ()
  | _ + 1, none => .error ()
  | n + 1, some item =>
    match item with
    | .mk iref ity _ien _iit ione _iprops _ireq _iall =>
      match ione with
      | some alts =>
        match synthAltsF cfg n alts with
        | .error e => .error e
        | .ok parts =>
          .ok (some ("Array<" ++
            String.intercalate " | " (parts.map (fun o => o.getD (""))) ++ ">"))
      | none =>
        match iref with
        | some r => .ok (some ("Array<" ++ jsStr (definitionTypeName r) ++ ">"))
        | none =>
          if ity = some ("object") then
            match (synthBF cfg n item).2 with
            | .error e => .error e
            | .ok pl =>
              match propertiesTemplate cfg pl with
              | .error e => .error e
              | .ok none => .error ()
              | .ok (some str) => .ok (some ("Array<" ++ stripQuotes str ++ ">"))
          else .ok (some ("Array<" ++ jsStr (typeMappingOpt ity) ++ ">"))

/-- Combined computation of `typeFor` (first component, lines 34-59) and
`propertiesList` (second component, lines 77-110) for one schema
node. -/
def synthBF (cfg : Cfg) : Nat → Schema → JsRes (Option String) × JsRes PropRes
  | 0, _ => (.error (), .error ())
  | n + 1, .mk ref ty en it _one props req allOf =>
    ( (if ty = some ("array") then synthArrayF cfg n it else enumOrLast ref ty en),
      match allOf with
      | some members =>
        match synthManyF cfg n members with
        | .error e => .error e
        | .ok rs => .ok (.list rs)
      | none =>
        if strTruthy ref then .ok (.refMark (definitionTypeName (ref.getD (""))))
        else
          match ty with
          | some t =>
            if t = "object" then
              match props with
              | none => .ok (.obj [])
              | some ps =>
                if ps.isEmpty then .ok (.obj [])
                else
                  match synthPropsF cfg req n ps with
                  | .error e => .error e
                  | .ok entries => .ok (.obj (assignMerge entries))
            else
              match (if ty = some ("array") then synthArrayF cfg n it else enumOrLast ref ty en) with
              | .error e => .error e
              | .ok o => .ok (.typ o)
          | none =>
            match props with
            | none => .ok (.obj [])
            | some ps =>
              if ps.isEmpty then .ok (.obj [])
              else
                match synthPropsF cfg req n ps with
                | .error e => .error e
                | .ok entries => .ok (.obj (assignMerge entries)) )

/-- `propertiesList` mapped over the `allOf` members (line 79). -/
def synthManyF (cfg : Cfg) : Nat → List Schema → JsRes (List PropRes)
  | 0, _ => .error ()
  | _ + 1, [] => .ok []
  | n + 1, x :: rest =>
    match (synthBF cfg n x).2 with
    | .error e => .error e
    | .ok r =>
      match synthManyF cfg n rest with
      | .error e => .error e
      | .ok rs => .ok (r :: rs)

/-- The `oneOf` alternatives of an array's `items` (lines 37-43): an
object alternative recurses through `propertiesList(e.items)` (note:
its `items`, not `e` itself) followed by the emitter and a quote strip;
any other alternative goes through `typeFor`. -/
def synthAltsF (cfg : Cfg) : Nat → List Schema → JsRes (List (Option String))
  | 0, _ => .error ()
  | _ + 1, [] => .ok []
  | n + 1, (.mk eref ety een eit eone eprops ereq eall) :: rest =>
    let t1 : JsRes (Option String) :=
      if ety = some ("object") then
        match eit with
        | none => .error ()
        | some ei =>
          match (synthBF cfg n ei).2 with
          | .error er => .error er
          | .ok pl =>
            match propertiesTemplate cfg pl with
            | .error er => .error er
            | .ok none => .error ()
            | .ok (some str) => .ok (some (stripQuotes str))
      else (synthBF cfg n (.mk eref ety een eit eone eprops ereq eall)).1
    match t1 with
    | .error er => .error er
    | .ok t =>
      match synthAltsF cfg n rest with
      | .error er => .error er
      | .ok ts => .ok (t :: ts)

/-- The per-property fold of `propertiesList` (lines 96-109): each
property name is keyed through `propertyKeyForDefinition` and its value
synthesized through `typeFor`. -/
def synthPropsF (cfg : Cfg) (req : Option (List String)) :
    Nat → List (String × Schema) → JsRes (List (String × Option String))
  | 0, _ => .error ()
  | _ + 1, [] => .ok []
  | n + 1, (k, v) :: rest =>
    match (synthBF cfg n v).1 with
    | .error e => .error e
    | .ok t =>
      match synthPropsF cfg req n rest with
      | .error e => .error e
      | .ok ts => .ok ((propertyKeyForDefinition cfg k req, t) :: ts)

end

/-! Unfolding equations of the fueled functions at a positive fuel, one
per constructor case; each holds by definitional reduction. -/

/-- `synthArrayF` on absent `items`. -/
theorem synthArrayF_none (cfg : Cfg) (n : Nat) :
    synthArrayF cfg (n + 1) none = .error () := rfl

/-- `synthArrayF` on items carrying a `oneOf` list. -/
theorem synthArrayF_alts (cfg : Cfg) (n : Nat) (iref ity : Option String)
    (ien : Option (List String)) (iit : Option Schema) (alts : List Schema)
    (iprops : Option (List (String × Schema))) (ireq : Option (List String))
    (iall : Option (List Schema)) :
    synthArrayF cfg (n + 1)
        (some (.mk iref ity ien iit (some alts) iprops ireq iall)) =
      match synthAltsF cfg n alts with
      | .error e => .error e
      | .ok parts =>
        .ok (some ("Array<" ++
          String.intercalate " | " (parts.map (fun o => o.getD (""))) ++ ">")) := rfl

/-- `synthArrayF` on items without a `oneOf` list. -/
theorem synthArrayF_noOne (cfg : Cfg) (n : Nat) (iref ity : Option String)
    (ien : Option (List String)) (iit : Option Schema)
    (iprops : Option (List (String × Schema))) (ireq : Option (List String))
    (iall : Option (List Schema)) :
    synthArrayF cfg (n + 1)
        (some (.mk iref ity ien iit none iprops ireq iall)) =
      match iref with
      | some r => .ok (some ("Array<" ++ jsStr (definitionTypeName r) ++ ">"))
      | none =>
        if ity = some ("object") then
          match (synthBF cfg n (.mk iref ity ien iit none iprops ireq iall)).2 with
          | .error e => .error e
          | .ok pl =>
            match propertiesTemplate cfg pl with
            | .error e => .error e
            | .ok none => .error ()
            | .ok (some str) => .ok (some ("Array<" ++ stripQuotes str ++ ">"))
        else .ok (some ("Array<" ++ jsStr (typeMappingOpt ity) ++ ">")) := rfl

/-- `synthBF` on a node carrying an `allOf` list. -/
theorem synthBF_allOf (cfg : Cfg) (n : Nat) (ref ty : Option String)
    (en : Option (List String)) (it : Option Schema) (one : Option (List Schema))
    (props : Option (List (String × Schema))) (req : Option (List String))
    (members : List Schema) :
    synthBF cfg (n + 1) (.mk ref ty en it one props req (some members)) =
      ( (if ty = some ("array") then synthArrayF cfg n it else enumOrLast ref ty en),
        match synthManyF cfg n members with
        | .error e => .error e
        | .ok rs => .ok (.list rs) ) := rfl

/-- `synthBF` on a node without `allOf` and with a `properties` map. -/
theorem synthBF_psome (cfg : Cfg) (n : Nat) (ref ty : Option String)
    (en : Option (List String)) (it : Option Schema) (one : Option (List Schema))
    (ps : List (String × Schema)) (req : Option (List String)) :
    synthBF cfg (n + 1) (.mk ref ty en it one (some ps) req none) =
      ( (if ty = some ("array") then synthArrayF cfg n it else enumOrLast ref ty en),
        if strTruthy ref then .ok (.refMark (definitionTypeName (ref.getD (""))))
        else
          match ty with
          | some t =>
            if t = "object" then
              (if ps.isEmpty then .ok (.obj [])
               else
                 match synthPropsF cfg req n ps with
                 | .error e => .error e
                 | .ok entries => .ok (.obj (assignMerge entries)))
            else
              match (if ty = some ("array") then synthArrayF cfg n it else enumOrLast ref ty en) with
              | .error e => .error e
              | .ok o => .ok (.typ o)
          | none =>
            if ps.isEmpty then .ok (.obj [])
            else
              match synthPropsF cfg req n ps with
              | .error e => .error e
              | .ok entries => .ok (.obj (assignMerge entries)) ) := rfl

/-- `synthBF` on a node without `allOf` and without a `properties`
map. -/
theorem synthBF_pnone (cfg : Cfg) (n : Nat) (ref ty : Option String)
    (en : Option (List String)) (it : Option Schema) (one : Option (List Schema))
    (req : Option (List String)) :
    synthBF cfg (n + 1) (.mk ref ty en it one none req none) =
      ( (if ty = some ("array") then synthArrayF cfg n it else enumOrLast ref ty en),
        if strTruthy ref then .ok (.refMark (definitionTypeName (ref.getD (""))))
        else
          match ty with
          | some t =>
            if t = "object" then .ok (.obj [])
            else
              match (if ty = some ("array") then synthArrayF cfg n it else enumOrLast ref ty en) with
              | .error e => .error e
              | .ok o => .ok (.typ o)
          | none => .ok (.obj []) ) := rfl

/-- `synthManyF` on a member cons cell. -/
theorem synthManyF_cons (cfg : Cfg) (n : Nat) (x : Schema) (rest : List Schema) :
    synthManyF cfg (n + 1) (x :: rest) =
      match (synthBF cfg n x).2 with
      | .error e => .error e
      | .ok r =>
        match synthManyF cfg n rest with
        | .error e => .error e
        | .ok rs => .ok (r :: rs) := rfl

/-- `synthAltsF` on an alternative whose `items` field is present. -/
theorem synthAltsF_consItSome (cfg : Cfg) (n : Nat) (eref ety : Option String)
    (een : Option (List String)) (ei : Schema) (eone : Option (List Schema))
    (eprops : Option (List (String × Schema))) (ereq : Option (List String))
    (eall : Option (List Schema)) (rest : List Schema) :
    synthAltsF cfg (n + 1) ((.mk eref ety een (some ei) eone eprops ereq eall) :: rest) =
      match
        (if ety = some ("object") then
          match (synthBF cfg n ei).2 with
          | .error er => .error er
          | .ok pl =>
            match propertiesTemplate cfg pl with
            | .error er => .error er
            | .ok none => .error ()
            | .ok (some str) => .ok (some (stripQuotes str))
        else (synthBF cfg n (.mk eref ety een (some ei) eone eprops ereq eall)).1 :
          JsRes (Option String)) with
      | .error er => .error er
      | .ok t =>
        match synthAltsF cfg n rest with
        | .error er => .error er
        | .ok ts => .ok (t :: ts) := rfl

/-- `synthAltsF` on an alternative whose `items` field is absent. -/
theorem synthAltsF_consItNone (cfg : Cfg) (n : Nat) (eref ety : Option String)
    (een : Option (List String)) (eone : Option (List Schema))
    (eprops : Option (List (String × Schema))) (ereq : Option (List String))
    (eall : Option (List Schema)) (rest : List Schema) :
    synthAltsF cfg (n + 1) ((.mk eref ety een none eone eprops ereq eall) :: rest) =
      match
        (if ety = some ("object") then .error ()
         else (synthBF cfg n (.mk eref ety een none eone eprops ereq eall)).1 :
          JsRes (Option String)) with
      | .error er => .error er
      | .ok t =>
        match synthAltsF cfg n rest with
        | .error er => .error er
        | .ok ts => .ok (t :: ts) := rfl

/-- `synthPropsF` on a property cons cell. -/
theorem synthPropsF_cons (cfg : Cfg) (req : Option (List String)) (n : Nat)
    (k : String) (v : Schema) (rest : List (String × Schema)) :
    synthPropsF cfg req (n + 1) ((k, v) :: rest) =
      match (synthBF cfg n v).1 with
      | .error e => .error e
      | .ok t =>
        match synthPropsF cfg req n rest with
        | .error e => .error e
        | .ok ts => .ok ((propertyKeyForDefinition cfg k req, t) :: ts) := rfl

/-! Positivity of the sizes involved, and fuel irrelevance. -/

/-- A schema node has positive size. -/
theorem sizeS_pos (s : Schema) : 0 < sizeS s := by
  cases s; simp_arith [sizeS]

/-- A possibly-absent schema node has positive size. -/
theorem sizeOS_pos (o : Option Schema) : 0 < sizeOS o := by
  cases o <;> simp_arith [sizeOS]

/-- A schema list has positive size. -/
theorem sizeL_pos (l : List Schema) : 0 < sizeL l := by
  cases l <;> simp_arith [sizeL]

/-- A property list has positive size. -/
theorem sizeP_pos (l : List (String × Schema)) : 0 < sizeP l := by
  cases l with
  | nil => simp_arith [sizeP]
  | cons kv rest =>
    obtain ⟨k, v⟩ := kv
    simp_arith [sizeP]

/-- Fuel irrelevance: each fueled function returns the same result at
any two fuels that both cover its argument's size. -/
theorem fuelIrrel (cfg : Cfg) : ∀ N : Nat,
    (∀ n m it, n ≤ N → sizeOS it ≤ n → sizeOS it ≤ m →
      synthArrayF cfg n it = synthArrayF cfg m it) ∧
    (∀ n m s, n ≤ N → sizeS s ≤ n → sizeS s ≤ m →
      synthBF cfg n s = synthBF cfg m s) ∧
    (∀ n m l, n ≤ N → sizeL l ≤ n → sizeL l ≤ m →
      synthManyF cfg n l = synthManyF cfg m l) ∧
    (∀ n m l, n ≤ N → sizeL l ≤ n → sizeL l ≤ m →
      synthAltsF cfg n l = synthAltsF cfg m l) ∧
    (∀ req n m l, n ≤ N → sizeP l ≤ n → sizeP l ≤ m →
      synthPropsF cfg req n l = synthPropsF cfg req m l) := by
  intro N
  induction N with
  | zero =>
    refine ⟨fun n m it hn h1 _ => absurd h1 ?_, fun n m s hn h1 _ => absurd h1 ?_,
      fun n m l hn h1 _ => absurd h1 ?_, fun n m l hn h1 _ => absurd h1 ?_,
      fun req n m l hn h1 _ => absurd h1 ?_⟩
    · have := sizeOS_pos it; omega
    · have := sizeS_pos s; omega
    · have := sizeL_pos l; omega
    · have := sizeL_pos l; omega
    · have := sizeP_pos l; omega
  | succ N ih =>
    obtain ⟨ihA, ihB, ihM, ihL, ihP⟩ := ih
    refine ⟨?_, ?_, ?_, ?_, ?_⟩
    · intro n m it hn h1 h2
      by_cases hsm : n ≤ N
      · exact ihA n m it hsm h1 h2
      · have hn1 : n = N + 1 := by omega
        subst hn1
        have hm1 : 1 ≤ m := le_trans (sizeOS_pos it) h2
        obtain ⟨m1, rfl⟩ : ∃ m1, m = m1 + 1 := ⟨m - 1, by omega⟩
        cases it with
        | none => rfl
        | some item =>
          cases item with
          | mk iref ity ien iit ione iprops ireq iall =>
            cases ione with
            | some alts =>
              have hc : synthAltsF cfg N alts = synthAltsF cfg m1 alts := by
                refine ihL N m1 alts (Nat.le_refl N) ?_ ?_ <;>
                  (simp [sizeS, sizeOS, sizeOL, sizeL, sizeOP, sizeP] at h1 h2; omega)
              rw [synthArrayF_alts, synthArrayF_alts, hc]
            | none =>
              have hc : synthBF cfg N (.mk iref ity ien iit none iprops ireq iall) =
                  synthBF cfg m1 (.mk iref ity ien iit none iprops ireq iall) := by
                refine ihB N m1 _ (Nat.le_refl N) ?_ ?_ <;>
                  (simp [sizeS, sizeOS, sizeOL, sizeL, sizeOP, sizeP] at h1 h2 ⊢; omega)
              rw [synthArrayF_noOne, synthArrayF_noOne, hc]
    · intro n m s hn h1 h2
      by_cases hsm : n ≤ N
      · exact ihB n m s hsm h1 h2
      · have hn1 : n = N + 1 := by omega
        subst hn1
        have hm1 : 1 ≤ m := le_trans (sizeS_pos s) h2
        obtain ⟨m1, rfl⟩ : ∃ m1, m = m1 + 1 := ⟨m - 1, by omega⟩
        obtain ⟨ref, ty, en, it, one, props, req, allOf⟩ := s
        have hdisp : (if ty = some ("array") then synthArrayF cfg N it
              else enumOrLast ref ty en) =
            (if ty = some ("array") then synthArrayF cfg m1 it
              else enumOrLast ref ty en) := by
          have hc : synthArrayF cfg N it = synthArrayF cfg m1 it := by
            refine ihA N m1 it (Nat.le_refl N) ?_ ?_ <;>
              (simp [sizeS, sizeOS, sizeOL, sizeL, sizeOP, sizeP] at h1 h2 ⊢; omega)
          rw [hc]
        cases allOf with
        | some members =>
          have hc : synthManyF cfg N members = synthManyF cfg m1 members := by
            refine ihM N m1 members (Nat.le_refl N) ?_ ?_ <;>
              (simp [sizeS, sizeOS, sizeOL, sizeL, sizeOP, sizeP] at h1 h2 ⊢; omega)
          rw [synthBF_allOf, synthBF_allOf, hc, hdisp]
        | none =>
          cases props with
          | some ps =>
            have hc : synthPropsF cfg req N ps = synthPropsF cfg req m1 ps := by
              refine ihP req N m1 ps (Nat.le_refl N) ?_ ?_ <;>
                (simp [sizeS, sizeOS, sizeOL, sizeL, sizeOP, sizeP] at h1 h2 ⊢; omega)
            rw [synthBF_psome, synthBF_psome, hc, hdisp]
          | none => rw [synthBF_pnone, synthBF_pnone, hdisp]
    · intro n m l hn h1 h2
      by_cases hsm : n ≤ N
      · exact ihM n m l hsm h1 h2
      · have hn1 : n = N + 1 := by omega
        subst hn1
        have hm1 : 1 ≤ m := le_trans (sizeL_pos l) h2
        obtain ⟨m1, rfl⟩ : ∃ m1, m = m1 + 1 := ⟨m - 1, by omega⟩
        cases l with
        | nil => rfl
        | cons x rest =>
          have hx : synthBF cfg N x = synthBF cfg m1 x := by
            refine ihB N m1 x (Nat.le_refl N) ?_ ?_ <;>
              (simp [sizeS, sizeOS, sizeOL, sizeL, sizeOP, sizeP] at h1 h2 ⊢; omega)
          have hr : synthManyF cfg N rest = synthManyF cfg m1 rest := by
            refine ihM N m1 rest (Nat.le_refl N) ?_ ?_ <;>
              (simp [sizeS, sizeOS, sizeOL, sizeL, sizeOP, sizeP] at h1 h2 ⊢; omega)
          rw [synthManyF_cons, synthManyF_cons, hx, hr]
    · intro n m l hn h1 h2
      by_cases hsm : n ≤ N
      · exact ihL n m l hsm h1 h2
      · have hn1 : n = N + 1 := by omega
        subst hn1
        have hm1 : 1 ≤ m := le_trans (sizeL_pos l) h2
        obtain ⟨m1, rfl⟩ : ∃ m1, m = m1 + 1 := ⟨m - 1, by omega⟩
        cases l with
        | nil => rfl
        | cons e rest =>
          obtain ⟨eref, ety, een, eit, eone, eprops, ereq, eall⟩ := e
          have hr : synthAltsF cfg N rest = synthAltsF cfg m1 rest := by
            refine ihL N m1 rest (Nat.le_refl N) ?_ ?_ <;>
              (simp [sizeS, sizeOS, sizeOL, sizeL, sizeOP, sizeP] at h1 h2 ⊢; omega)
          cases eit with
          | some ei =>
            have hei : synthBF cfg N ei = synthBF cfg m1 ei := by
              refine ihB N m1 ei (Nat.le_refl N) ?_ ?_ <;>
                (simp [sizeS, sizeOS, sizeOL, sizeL, sizeOP, sizeP] at h1 h2 ⊢; omega)
            have hhd : synthBF cfg N (.mk eref ety een (some ei) eone eprops ereq eall) =
                synthBF cfg m1 (.mk eref ety een (some ei) eone eprops ereq eall) := by
              refine ihB N m1 _ (Nat.le_refl N) ?_ ?_ <;>
                (simp [sizeS, sizeOS, sizeOL, sizeL, sizeOP, sizeP] at h1 h2 ⊢; omega)
            rw [synthAltsF_consItSome, synthAltsF_consItSome, hei, hhd, hr]
          | none =>
            have hhd : synthBF cfg N (.mk eref ety een none eone eprops ereq eall) =
                synthBF cfg m1 (.mk eref ety een none eone eprops ereq eall) := by
              refine ihB N m1 _ (Nat.le_refl N) ?_ ?_ <;>
                (simp [sizeS, sizeOS, sizeOL, sizeL, sizeOP, sizeP] at h1 h2 ⊢; omega)
            rw [synthAltsF_consItNone, synthAltsF_consItNone, hhd, hr]
    · intro req n m l hn h1 h2
      by_cases hsm : n ≤ N
      · exact ihP req n m l hsm h1 h2
      · have hn1 : n = N + 1 := by omega
        subst hn1
        have hm1 : 1 ≤ m := le_trans (sizeP_pos l) h2
        obtain ⟨m1, rfl⟩ : ∃ m1, m = m1 + 1 := ⟨m - 1, by omega⟩
        cases l with
        | nil => rfl
        | cons kv rest =>
          obtain ⟨k, v⟩ := kv
          have hv : synthBF cfg N v = synthBF cfg m1 v := by
            refine ihB N m1 v (Nat.le_refl N) ?_ ?_ <;>
              (simp [sizeS, sizeOS, sizeOL, sizeL, sizeOP, sizeP] at h1 h2 ⊢; omega)
          have hr : synthPropsF cfg req N rest = synthPropsF cfg req m1 rest := by
            refine ihP req N m1 rest (Nat.le_refl N) ?_ ?_ <;>
              (simp [sizeS, sizeOS, sizeOL, sizeL, sizeOP, sizeP] at h1 h2 ⊢; omega)
          rw [synthPropsF_cons, synthPropsF_cons, hv, hr]

/-- The `type === "array"` branch of `typeFor`, fuel instantiated. -/
def synthArray (cfg : Cfg) (it : Option Schema) : JsRes (Option String) :=
  synthArrayF cfg (sizeOS it) it

/-- Combined `typeFor` / `propertiesList` computation, fuel
instantiated. -/
def synthBoth (cfg : Cfg) (s : Schema) : JsRes (Option String) × JsRes PropRes :=
  synthBF cfg (sizeS s) s

/-- `propertiesList` mapped over the `allOf` members, fuel
instantiated. -/
def synthMany (cfg : Cfg) (l : List Schema) : JsRes (List PropRes) :=
  synthManyF cfg (sizeL l) l

/-- The `oneOf` alternatives of an array's `items`, fuel
instantiated. -/
def synthAlts (cfg : Cfg) (l : List Schema) : JsRes (List (Option String)) :=
  synthAltsF cfg (sizeL l) l

/-- The per-property fold of `propertiesList`, fuel instantiated. -/
def synthProps (cfg : Cfg) (req : Option (List String))
    (l : List (String × Schema)) : JsRes (List (String × Option String)) :=
  synthPropsF cfg req (sizeP l) l

/-- Model of `typeFor`. -/
def typeFor (cfg : Cfg) (s : Schema) : JsRes (Option String) := (synthBoth cfg s).1

/-- Model of `propertiesList`. -/
def propertiesList (cfg : Cfg) (s : Schema) : JsRes PropRes := (synthBoth cfg s).2

/-- A sufficient fuel computes `synthArray`. -/
theorem synthArrayF_eq (cfg : Cfg) (n : Nat) (it : Option Schema)
    (h : sizeOS it ≤ n) : synthArrayF cfg n it = synthArray cfg it :=
  (fuelIrrel cfg n).1 n (sizeOS it) it (Nat.le_refl n) h (Nat.le_refl _)

/-- A sufficient fuel computes `synthBoth`. -/
theorem synthBF_eq (cfg : Cfg) (n : Nat) (s : Schema)
    (h : sizeS s ≤ n) : synthBF cfg n s = synthBoth cfg s :=
  (fuelIrrel cfg n).2.1 n (sizeS s) s (Nat.le_refl n) h (Nat.le_refl _)

/-- A sufficient fuel computes `synthMany`. -/
theorem synthManyF_eq (cfg : Cfg) (n : Nat) (l : List Schema)
    (h : sizeL l ≤ n) : synthManyF cfg n l = synthMany cfg l :=
  (fuelIrrel cfg n).2.2.1 n (sizeL l) l (Nat.le_refl n) h (Nat.le_refl _)

/-- A sufficient fuel computes `synthAlts`. -/
theorem synthAltsF_eq (cfg : Cfg) (n : Nat) (l : List Schema)
    (h : sizeL l ≤ n) : synthAltsF cfg n l = synthAlts cfg l :=
  (fuelIrrel cfg n).2.2.2.1 n (sizeL l) l (Nat.le_refl n) h (Nat.le_refl _)

/-- A sufficient fuel computes `synthProps`. -/
theorem synthPropsF_eq (cfg : Cfg) (req : Option (List String)) (n : Nat)
    (l : List (String × Schema)) (h : sizeP l ≤ n) :
    synthPropsF cfg req n l = synthProps cfg req l :=
  (fuelIrrel cfg n).2.2.2.2 req n (sizeP l) l (Nat.le_refl n) h (Nat.le_refl _)

/-- Unfolding of `typeFor` on a destructured node: the array branch
dispatches on `items`, anything else through the string-enum rule and
the final table-or-ref line. -/
theorem typeFor_mk (cfg : Cfg) (ref ty : Option String)
    (en : Option (List String)) (it : Option Schema) (one : Option (List Schema))
    (props : Option (List (String × Schema))) (req : Option (List String))
    (allOf : Option (List Schema)) :
    typeFor cfg (.mk ref ty en it one props req allOf) =
      if ty = some ("array") then synthArray cfg it else enumOrLast ref ty en := by
  have hpos := sizeS_pos (Schema.mk ref ty en it one props req allOf)
  obtain ⟨K, hK⟩ : ∃ K, sizeS (Schema.mk ref ty en it one props req allOf) = K + 1 :=
    ⟨sizeS (Schema.mk ref ty en it one props req allOf) - 1, by omega⟩
  have hit : sizeOS it ≤ K := by
    simp [sizeS] at hK; omega
  rw [typeFor, synthBoth, hK]
  cases allOf with
  | some members => rw [synthBF_allOf, synthArrayF_eq cfg K it hit]
  | none =>
    cases props with
    | some ps => rw [synthBF_psome, synthArrayF_eq cfg K it hit]
    | none => rw [synthBF_pnone, synthArrayF_eq cfg K it hit]

/-- Unfolding of `propertiesList` on an object-shaped node: no `allOf`,
no `$ref`, type absent or `object`, a `properties` map present. -/
theorem propertiesList_object (cfg : Cfg) (ty : Option String)
    (en : Option (List String)) (it : Option Schema) (one : Option (List Schema))
    (ps : List (String × Schema)) (req : Option (List String))
    (hty : ty = none ∨ ty = some ("object")) :
    propertiesList cfg (.mk none ty en it one (some ps) req none) =
      if ps.isEmpty then .ok (.obj [])
      else
        match synthProps cfg req ps with
        | .error e => .error e
        | .ok entries => .ok (.obj (assignMerge entries)) := by
  have hpos := sizeS_pos (Schema.mk none ty en it one (some ps) req none)
  obtain ⟨K, hK⟩ : ∃ K, sizeS (Schema.mk none ty en it one (some ps) req none) = K + 1 :=
    ⟨sizeS (Schema.mk none ty en it one (some ps) req none) - 1, by omega⟩
  have hps : sizeP ps ≤ K := by
    simp [sizeS, sizeOP] at hK; omega
  rw [propertiesList, synthBoth, hK, synthBF_psome, synthPropsF_eq cfg req K ps hps]
  rcases hty with rfl | rfl
  · rfl
  · rfl

/-- The wrapped per-property fold on the empty map. -/
theorem synthProps_nil (cfg : Cfg) (req : Option (List String)) :
    synthProps cfg req [] = .ok [] := rfl

/-- The wrapped per-property fold on a cons cell: the value through
`typeFor`, then the rest. -/
theorem synthProps_cons (cfg : Cfg) (req : Option (List String))
    (k : String) (v : Schema) (rest : List (String × Schema)) :
    synthProps cfg req ((k, v) :: rest) =
      match typeFor cfg v with
      | .error e => .error e
      | .ok t =>
        match synthProps cfg req rest with
        | .error e => .error e
        | .ok ts => .ok ((propertyKeyForDefinition cfg k req, t) :: ts) := by
  have hpos := sizeP_pos ((k, v) :: rest)
  obtain ⟨K, hK⟩ : ∃ K, sizeP (((k, v) :: rest : List (String × Schema))) = K + 1 :=
    ⟨sizeP (((k, v) :: rest : List (String × Schema))) - 1, by omega⟩
  have hv : sizeS v ≤ K := by
    simp [sizeP] at hK; omega
  have hr : sizeP rest ≤ K := by
    simp [sizeP] at hK; omega
  rw [synthProps, hK, synthPropsF_cons, synthBF_eq cfg K v hv,
    synthPropsF_eq cfg req K rest hr]
  rfl


/-! ## Import Resolver (`importsList`, lines 113-124)

The scan walks the direct properties in order and pushes the resolved
name — possibly `undefined` — for a property with a truthy `$ref`, or
for an array property whose truthy `items` carry a truthy `$ref`. -/

/-- The per-property scan of `importsList`. -/
def importsScan : List (String × Schema) → List (Option String)
  | [] => []
  | (_, v) :: rest =>
    (match v with
     | .mk vref vty _ven vit _vone _vprops _vreq _vall =>
       if strTruthy vref then [definitionTypeName (vref.getD (""))]
       else if vty = some ("array") then
         match vit with
         | some (.mk itref _ _ _ _ _ _ _) =>
           if strTruthy itref then [definitionTypeName (itref.getD (""))] else []
         | none => []
       else []) ++ importsScan rest

/-- Model of `importsList`: empty when `properties` is absent. -/
def importsList : Schema → List (Option String)
  | .mk _ _ _ _ _ props _ _ =>
    match props with
    | none => []
    | some ps => importsScan ps

/-! ## De-duplication (`Array.from(new Set(...))`, line 225)

A JavaScript `Set` iterates in insertion order and keeps the earliest
occurrence of a repeated element. -/

/-- Set construction with an accumulator of already-seen elements. -/
def dedupSeen {α : Type} [DecidableEq α] (seen : List α) : List α → List α
  | [] => []
  | a :: l => if a ∈ seen then dedupSeen seen l else a :: dedupSeen (a :: seen) l

/-- Model of `Array.from(new Set(l))`. -/
def dedupKeepFirst {α : Type} [DecidableEq α] (l : List α) : List α := dedupSeen [] l

/-- Model of `importTemplate` (lines 221-222). -/
def importTemplate (t : String) : String :=
  "import type \x7b " ++ t ++ " \x7d from './" ++ t ++ "';"

/-- The deduplicated import names that feed the import statements of one
definition (line 225). -/
def importNames (d : Schema) : List (Option String) := dedupKeepFirst (importsList d)

/-- Model of `importTemplates` (lines 224-227), taking the raw import
list of the definition tuple. -/
def importTemplates (imps : List (Option String)) : String :=
  String.intercalate "\n" ((dedupKeepFirst imps).map (fun o => importTemplate (jsStr o)))

/-! ## Definition Collector (`generatorArray`, lines 197-219) -/

/-- The `components` object of an OpenAPI-3 document. -/
structure Components where
  schemas : Option (List (String × Schema))

/-- A parsed schema document: at most one of `definitions` and
`components.schemas`. -/
structure SwaggerDoc where
  definitions : Option (List (String × Schema))
  components : Option Components

/-- Errors at the generator level: the fatal "There is no definition"
input error, or a `TypeError` thrown further down. -/
inductive GenErr where
  | noDefinition
  | thrown
deriving DecidableEq, Repr

/-- One collected definition tuple: title, property list, raw import
list. -/
structure DefTuple where
  title : String
  properties : PropRes
  imports : List (Option String)

/-- The per-definition fold of `generatorArray` (lines 208-218). -/
def genDefs (cfg : Cfg) : List (String × Schema) → Except GenErr (List DefTuple)
  | [] => .ok []
  | (name, sch) :: rest =>
    match propertiesList cfg sch with
    | .error _ => .error .thrown
    | .ok pl =>
      match genDefs cfg rest with
      | .error e => .error e
      | .ok ds => .ok (⟨stripBrackets (removeGenericsBug name), pl, importsList sch⟩ :: ds)

/-- Model of `generatorArray`: pick `definitions`, else
`components.schemas`; absence of both is the fatal "There is no
definition" error (line 205). -/
def generatorArray (cfg : Cfg) (doc : SwaggerDoc) : Except GenErr (List DefTuple) :=
  match
    (match doc.definitions with
     | some d => some d
     | none =>
       match doc.components with
       | some c => c.schemas
       | none => none : Option (List (String × Schema))) with
  | none => .error .noDefinition
  | some ds => genDefs cfg ds

/-! ## Emitter, per-definition text (`generateTypeFile`, lines 229-234) -/

/-- The type-expression side of one declaration: the emitter's output
with every double quote stripped (line 232); a `propertiesTemplate`
result of `undefined` makes `.replace` throw. -/
def typeExprText (cfg : Cfg) (p : PropRes) : JsRes String :=
  match propertiesTemplate cfg p with
  | .error e => .error e
  | .ok none => .error ()
  | .ok (some s) => .ok (stripQuotes s)

/-- Model of `generateTypeFile`: the import statements concatenated with
the exported type alias. -/
def generateTypeFile (cfg : Cfg) (d : DefTuple) : JsRes String :=
  match typeExprText cfg d.properties with
  | .error e => .error e
  | .ok e =>
    .ok (importTemplates d.imports ++ "export type " ++ d.title ++ " = " ++ e ++ ";")

/-- Declaration text of every collected definition, in order. -/
def renderFiles (cfg : Cfg) : List DefTuple → Except GenErr (List String)
  | [] => .ok []
  | d :: rest =>
    match generateTypeFile cfg d with
    | .error _ => .error .thrown
    | .ok s =>
      match renderFiles cfg rest with
      | .error e => .error e
      | .ok ss => .ok (s :: ss)

/-- Whole-document generation: collection followed by per-definition
declaration-text rendering (the pre-formatting text of the run). -/
def renderAll (cfg : Cfg) (doc : SwaggerDoc) : Except GenErr (List String) :=
  match generatorArray cfg doc with
  | .error e => .error e
  | .ok ds => renderFiles cfg ds

/-! ## Example schema builders (used by concrete instances below) -/

/-- A schema node with every field absent. -/
def blankS : Schema := .mk none none none none none none none none

/-- A bare `$ref` node. -/
def refS (r : String) : Schema := .mk (some r) none none none none none none none

/-- A bare primitive node `\x7b type: t \x7d`. -/
def primS (t : String) : Schema := .mk none (some t) none none none none none none

/-- A string-enum node. -/
def enumS (vals : List String) : Schema :=
  .mk none (some ("string")) (some vals) none none none none none

/-- An object node with properties and no `required` list. -/
def objS (props : List (String × Schema)) : Schema :=
  .mk none (some ("object")) none none none (some props) none none

/-- An object node with properties and a `required` list. -/
def objReqS (props : List (String × Schema)) (req : List String) : Schema :=
  .mk none (some ("object")) none none none (some props) (some req) none

/-- An array node whose `items` are the given node. -/
def arrS (item : Schema) : Schema :=
  .mk none (some ("array")) none (some item) none none none none

/-- An `allOf` composition node. -/
def allOfS (ms : List Schema) : Schema := .mk none none none none none none none (some ms)

/-! ## Helper lemmas: de-duplication -/

theorem dedupSeen_sublist {α : Type} [DecidableEq α] (l : List α) :
    ∀ seen, List.Sublist (dedupSeen seen l) l := by
  induction l with
  | nil => intro seen; simp [dedupSeen]
  | cons a l ih =>
    intro seen
    by_cases ha : a ∈ seen
    · simp only [dedupSeen, if_pos ha]
      exact (ih seen).cons a
    · simp only [dedupSeen, if_neg ha]
      exact (ih (a :: seen)).cons₂ a

theorem dedupSeen_mem {α : Type} [DecidableEq α] (x : α) (l : List α) :
    ∀ seen, x ∈ dedupSeen seen l ↔ x ∈ l ∧ x ∉ seen := by
  induction l with
  | nil => intro seen; simp [dedupSeen]
  | cons a l ih =>
    intro seen
    by_cases ha : a ∈ seen
    · simp only [dedupSeen, if_pos ha, ih, List.mem_cons]
      constructor
      · rintro ⟨hl, hs⟩; exact ⟨Or.inr hl, hs⟩
      · rintro ⟨hxa | hl, hs⟩
        · subst hxa; exact absurd ha hs
        · exact ⟨hl, hs⟩
    · simp only [dedupSeen, if_neg ha, List.mem_cons, ih]
      constructor
      · rintro (rfl | ⟨hl, hs⟩)
        · exact ⟨Or.inl rfl, ha⟩
        · exact ⟨Or.inr hl, fun hxs => hs (Or.inr hxs)⟩
      · rintro ⟨hx | hl, hs⟩
        · exact Or.inl hx
        · by_cases hxa : x = a
          · exact Or.inl hxa
          · refine Or.inr ⟨hl, fun hxs => ?_⟩
            rcases hxs with h | h
            · exact hxa h
            · exact hs h

theorem dedupSeen_nodup {α : Type} [DecidableEq α] (l : List α) :
    ∀ seen, (dedupSeen seen l).Nodup := by
  induction l with
  | nil => intro seen; simp [dedupSeen]
  | cons a l ih =>
    intro seen
    by_cases ha : a ∈ seen
    · simp only [dedupSeen, if_pos ha]
      exact ih seen
    · simp only [dedupSeen, if_neg ha, List.nodup_cons]
      refine ⟨fun hmem => ?_, ih (a :: seen)⟩
      rcases (dedupSeen_mem a l (a :: seen)).mp hmem with ⟨_, habs⟩
      exact habs (List.mem_cons_self a seen)

/-! ## Helper lemmas: the member sort -/

theorem sortJs_partition (l : List String) :
    ∃ A B, sortJs l = A ++ B ∧ (∀ x ∈ A, ampHead x = false) ∧ (∀ x ∈ B, ampHead x = true) := by
  suffices h : ∀ acc A B, acc = A ++ B → (∀ x ∈ A, ampHead x = false) →
      (∀ x ∈ B, ampHead x = true) →
      ∃ A' B', l.foldl sortStep acc = A' ++ B' ∧ (∀ x ∈ A', ampHead x = false) ∧
        (∀ x ∈ B', ampHead x = true) by
    exact h [] [] [] rfl (by simp) (by simp)
  induction l with
  | nil =>
    intro acc A B hacc hA hB
    exact ⟨A, B, hacc, hA, hB⟩
  | cons x l ih =>
    intro acc A B hacc hA hB
    subst hacc
    simp only [List.foldl_cons]
    by_cases hx : ampHead x = true
    · refine ih (sortStep (A ++ B) x) A (B ++ [x]) ?_ hA ?_
      · simp [sortStep, hx, List.append_assoc]
      · intro y hy
        rcases List.mem_append.mp hy with h | h
        · exact hB y h
        · rcases List.mem_singleton.mp h with rfl; exact hx
    · refine ih (sortStep (A ++ B) x) (x :: A) B ?_ ?_ hB
      · simp [sortStep, hx]
      · intro y hy
        rcases List.mem_cons.mp hy with rfl | h
        · simpa using hx
        · exact hA y h

/-! ## Helper lemmas: the definition collector never raises the fatal
input error once a definitions map was found -/

theorem genDefs_ne_noDefinition (cfg : Cfg) (l : List (String × Schema)) :
    genDefs cfg l ≠ .error .noDefinition := by
  induction l with
  | nil => simp [genDefs]
  | cons hd tl ih =>
    obtain ⟨name, sch⟩ := hd
    simp only [genDefs]
    cases propertiesList cfg sch with
    | error e => simp
    | ok pl =>
      cases htl : genDefs cfg tl with
      | error e =>
        simp only []
        intro h
        rw [htl] at ih
        cases h
        exact ih rfl
      | ok ds => simp

/-! ## Claim C4 -/

/-- C4: for every parsed document, generation raises the "There is no
definition" fatal error exactly when neither a top-level `definitions`
map nor a `components.schemas` map is present; when one of the two maps
is present, that error is never raised (and in the error case no
definition tuples are produced, the result being the error alone). -/
theorem generatorArray_noDefinition_iff (cfg : Cfg) (doc : SwaggerDoc) :
    generatorArray cfg doc = .error .noDefinition ↔
      doc.definitions = none ∧ (∀ c, doc.components = some c → c.schemas = none) := by
  obtain ⟨defs, comps⟩ := doc
  cases defs with
  | some d =>
    simp only [generatorArray]
    constructor
    · intro h
      exact absurd h (genDefs_ne_noDefinition cfg d)
    · rintro ⟨hdef, _⟩
      exact Option.noConfusion hdef
  | none =>
    cases comps with
    | none => simp [generatorArray]
    | some c =>
      obtain ⟨sc⟩ := c
      cases sc with
      | none => simp [generatorArray]
      | some l =>
        simp only [generatorArray]
        constructor
        · intro h
          exact absurd h (genDefs_ne_noDefinition cfg l)
        · rintro ⟨_, hc⟩
          have := hc ⟨some l⟩ rfl
          exact Option.noConfusion this

/-! ## Claim C9 -/

/-- C9: generation is deterministic — collection and declaration-text
rendering are pure functions of the document and the configuration, so
two runs over equal inputs produce identical definition tuples and
identical pre-formatting declaration text. -/
theorem generation_deterministic (cfg cfg' : Cfg) (doc doc' : SwaggerDoc)
    (hc : cfg = cfg') (hd : doc = doc') :
    generatorArray cfg doc = generatorArray cfg' doc' ∧
    renderAll cfg doc = renderAll cfg' doc' := by
  subst hc; subst hd; exact ⟨rfl, rfl⟩

/-- Witness for C9 at a concrete document and configuration. -/
theorem generation_deterministic_witness :
    generatorArray ⟨false, false⟩ ⟨some [("Pet", objS [("id", primS ("integer"))])], none⟩ =
      generatorArray ⟨false, false⟩ ⟨some [("Pet", objS [("id", primS ("integer"))])], none⟩ ∧
    renderAll ⟨false, false⟩ ⟨some [("Pet", objS [("id", primS ("integer"))])], none⟩ =
      renderAll ⟨false, false⟩ ⟨some [("Pet", objS [("id", primS ("integer"))])], none⟩ :=
  generation_deterministic ⟨false, false⟩ ⟨false, false⟩
    ⟨some [("Pet", objS [("id", primS ("integer"))])], none⟩
    ⟨some [("Pet", objS [("id", primS ("integer"))])], none⟩ rfl rfl

/-! ## Claim C6 -/

/-- C6: a schema node with type `string` and an `enum` list synthesizes
to a union of single-quoted literals in list order, whatever its other
fields hold; in particular `\x7b type: string, enum: [a, b, c] \x7d`
synthesizes to `'a' | 'b' | 'c'`. -/
theorem typeFor_string_enum (cfg : Cfg) (ref : Option String) (l : List String)
    (it : Option Schema) (one : Option (List Schema))
    (props : Option (List (String × Schema))) (req : Option (List String))
    (allOf : Option (List Schema)) :
    typeFor cfg (.mk ref (some ("string")) (some l) it one props req allOf) =
      .ok (some (String.intercalate " | " (l.map (fun v => "'" ++ v ++ "'")))) ∧
    typeFor cfg (enumS ["a", "b", "c"]) = .ok (some ("'a' | 'b' | 'c'")) := by
  have key : ∀ (ref' : Option String) (l' : List String) (it' : Option Schema)
      (one' : Option (List Schema)) (props' : Option (List (String × Schema)))
      (req' : Option (List String)) (allOf' : Option (List Schema)),
      typeFor cfg (.mk ref' (some ("string")) (some l') it' one' props' req' allOf') =
        .ok (some (String.intercalate " | " (l'.map (fun v => "'" ++ v ++ "'")))) := by
    intro ref' l' it' one' props' req' allOf'
    rw [typeFor_mk]
    simp [enumOrLast]
  refine ⟨key ref l it one props req allOf, ?_⟩
  rw [show (enumS ["a", "b", "c"] : Schema) =
        .mk none (some ("string")) (some ["a", "b", "c"]) none none none none none from rfl,
    key none ["a", "b", "c"] none none none none none]
  rfl

/-! ## Claim C8 (corrected) -/

/-- C8 counterexample: a node whose type has no primitive-table entry
and which has no `$ref` does not produce a quiet `undefined` result —
`typeFor` throws a `TypeError` (from `undefined.match` inside
`definitionTypeName`). -/
theorem typeFor_quiet_fallback_cx :
    typeFor ⟨false, false⟩ (primS ("foo")) = .error () ∧
    ¬ typeFor ⟨false, false⟩ (primS ("foo")) = .ok none := by
  have h : typeFor ⟨false, false⟩ (primS ("foo")) = .error () := rfl
  exact ⟨h, by simp [h]⟩

/-- C8 (amended): when the `type` misses the primitive table and no
`$ref` is present, the Type Synthesizer raises a `TypeError` rather than
returning quietly; the quiet `undefined` result arises only with a
`$ref` present whose resolution is itself `undefined`, as for the
pointer consisting of the bare `#/definitions/` prefix. -/
theorem typeFor_no_table_no_ref (cfg : Cfg) (s : Schema)
    (hmap : typeMappingOpt s.type = none) (href : s.ref = none) :
    typeFor cfg s = .error () ∧
    typeFor cfg (refS ("#/definitions/")) = .ok none := by
  obtain ⟨ref, ty, en, it, one, props, req, all⟩ := s
  constructor
  · simp only [Schema.type] at hmap
    simp only [Schema.ref] at href
    subst href
    have h1 : ty ≠ some ("array") := by
      rintro rfl; simp [typeMappingOpt, typeMapping] at hmap
    have h2 : ty ≠ some ("string") := by
      rintro rfl; simp [typeMappingOpt, typeMapping] at hmap
    rw [typeFor_mk]
    simp [enumOrLast, h1, h2, lastReturn, hmap]
  · rfl

/-- Witness for C8 at a concrete node with an unknown type. -/
theorem typeFor_no_table_no_ref_witness :
    typeMappingOpt (primS ("foo")).type = none ∧ (primS ("foo")).ref = none ∧
    (typeFor ⟨false, false⟩ (primS ("foo")) = .error () ∧
     typeFor ⟨false, false⟩ (refS ("#/definitions/")) = .ok none) :=
  ⟨rfl, rfl, typeFor_no_table_no_ref ⟨false, false⟩ (primS ("foo")) rfl rfl⟩

/-! ## Helper lemmas: the reference-pointer scan -/

theorem leadsWith_append (p s : List Char) : leadsWith p (p ++ s) = true := by
  induction p with
  | nil => rfl
  | cons c p ih => simp [leadsWith, ih]

theorem takeWhile_no_newline (l : List Char) (h : ∀ c ∈ l, c ≠ '\n') :
    l.takeWhile (fun c => c != '\n') = l := by
  induction l with
  | nil => rfl
  | cons c l ih =>
    have hc : (c != '\n') = true := by
      simpa using h c (List.mem_cons_self c l)
    simp only [List.takeWhile_cons, hc, if_true]
    rw [ih (fun d hd => h d (List.mem_cons_of_mem c hd))]

theorem scanRef_cons_pos1 (c : Char) (rest : List Char)
    (h : leadsWith defsPat (c :: rest) = true) :
    scanRef (c :: rest) = some (.alt1 (dotStar ((c :: rest).drop defsPat.length))) := by
  simp [scanRef, h]

theorem scanRef_cons_neg (c : Char) (rest : List Char)
    (h1 : leadsWith defsPat (c :: rest) = false)
    (h2 : leadsWith compPat (c :: rest) = false) :
    scanRef (c :: rest) = scanRef rest := by
  simp [scanRef, h1, h2]

theorem scanRef_none (l : List Char)
    (h : ∀ i, i ≤ l.length →
      leadsWith defsPat (l.drop i) = false ∧ leadsWith compPat (l.drop i) = false) :
    scanRef l = none := by
  induction l with
  | nil => rfl
  | cons c rest ih =>
    have h0 := h 0 (Nat.zero_le _)
    simp only [List.drop_zero] at h0
    rw [scanRef_cons_neg c rest h0.1 h0.2]
    refine ih (fun i hi => ?_)
    have := h (i + 1) (by simpa using Nat.succ_le_succ hi)
    simpa using this

theorem stringMk_toList (s : String) : String.mk s.toList = s := by
  cases s; rfl

/-- The trailing capture of the first alternative when the pointer is
exactly the prefix followed by a newline-free name. -/
theorem scanRef_defs (name : List Char) :
    scanRef (defsPat ++ name) = some (.alt1 (dotStar name)) := by
  have hshape : defsPat ++ name = '#' :: (defsPat.drop 1 ++ name) := rfl
  have hlead : leadsWith defsPat ('#' :: (defsPat.drop 1 ++ name)) = true := by
    rw [← hshape]; exact leadsWith_append _ _
  rw [hshape, scanRef_cons_pos1 _ _ hlead, ← hshape, List.drop_left]

theorem scanRef_comp (name : List Char) :
    scanRef (compPat ++ name) = some (.alt2 (dotStar name)) := by
  have hshape : compPat ++ name = '#' :: (compPat.drop 1 ++ name) := rfl
  have h1 : leadsWith defsPat ('#' :: (compPat.drop 1 ++ name)) = false := rfl
  have h2 : leadsWith compPat ('#' :: (compPat.drop 1 ++ name)) = true := by
    rw [← hshape]; exact leadsWith_append _ _
  rw [hshape]
  simp only [scanRef, h1, h2]
  rw [← hshape, List.drop_left]
  simp

/-! ## Claim C5 (corrected) -/

/-- C5 counterexample: the pointer consisting of exactly the
`#/definitions/` prefix does match the pattern (alternative 1, empty
capture), yet the resolver returns `undefined` (`none`), not the empty
trailing segment. -/
theorem definitionTypeName_empty_capture_cx :
    scanRef (String.toList ("#/definitions/")) = some (.alt1 ("")) ∧
    definitionTypeName ("#/definitions/") = none ∧
    (none : Option String) ≠ some ("") :=
  ⟨rfl, rfl, by simp⟩

/-- C5 (amended): a pointer in which neither pattern occurs at any start
position resolves to the empty string with no error; a matching pointer
resolves to its newline-free trailing segment — except that a
`#/definitions/` match whose trailing segment is empty resolves to
`undefined` (`none`) rather than to the empty string. -/
theorem definitionTypeName_spec (name ref : String)
    (hnl : ∀ c ∈ name.toList, c ≠ '\n')
    (hnm : ∀ i, i ≤ ref.toList.length →
      leadsWith defsPat (ref.toList.drop i) = false ∧
      leadsWith compPat (ref.toList.drop i) = false) :
    definitionTypeName ref = some ("") ∧
    (name ≠ "" → definitionTypeName ("#/definitions/" ++ name) = some name) ∧
    definitionTypeName ("#/components/schemas/" ++ name) = some name ∧
    definitionTypeName ("#/definitions/") = none := by
  have hcap : dotStar name.toList = name := by
    rw [dotStar, takeWhile_no_newline _ hnl, stringMk_toList]
  refine ⟨?_, ?_, ?_, rfl⟩
  · rw [definitionTypeName, scanRef_none _ hnm]
  · intro hne
    have hl : ("#/definitions/" ++ name).toList = defsPat ++ name.toList := by
      show ("#/definitions/" ++ name).data = defsPat ++ name.data
      rw [String.data_append]; rfl
    rw [definitionTypeName, hl, scanRef_defs, hcap]
    simp [hne]
  · have hl : ("#/components/schemas/" ++ name).toList = compPat ++ name.toList := by
      show ("#/components/schemas/" ++ name).data = compPat ++ name.data
      rw [String.data_append]; rfl
    rw [definitionTypeName, hl, scanRef_comp, hcap]

/-- Witness for C5 at the name `Pet` and the non-matching pointer `xx`. -/
theorem definitionTypeName_spec_witness :
    definitionTypeName ("xx") = some ("") ∧
    definitionTypeName ("#/definitions/" ++ "Pet") = some ("Pet") ∧
    definitionTypeName ("#/components/schemas/" ++ "Pet") = some ("Pet") ∧
    definitionTypeName ("#/definitions/") = none := by
  have h := definitionTypeName_spec ("Pet") ("xx") (by decide) (by decide)
  exact ⟨h.1, h.2.1 (by decide), h.2.2.1, h.2.2.2⟩

/-! ## Claim C7 -/

/-- The referenced names of a definition's direct properties as the
claim words them: a property with a truthy `$ref` contributes its
resolved name, as does an array property whose truthy `items` carry a
truthy `$ref`; nothing else contributes. -/
def claimRefNames (d : Schema) : List (Option String) :=
  match d.properties with
  | none => []
  | some ps =>
    ps.foldr (fun kv acc =>
      (if strTruthy kv.2.ref then [definitionTypeName (kv.2.ref.getD (""))]
       else if kv.2.type = some ("array") then
         match kv.2.items with
         | some item =>
           if strTruthy item.ref then [definitionTypeName (item.ref.getD (""))] else []
         | none => []
       else []) ++ acc) []

theorem importsScan_eq_claim (ps : List (String × Schema)) :
    importsScan ps =
      ps.foldr (fun kv acc =>
        (if strTruthy kv.2.ref then [definitionTypeName (kv.2.ref.getD (""))]
         else if kv.2.type = some ("array") then
           match kv.2.items with
           | some item =>
             if strTruthy item.ref then [definitionTypeName (item.ref.getD (""))] else []
           | none => []
         else []) ++ acc) [] := by
  induction ps with
  | nil => rfl
  | cons kv rest ih =>
    obtain ⟨k, v⟩ := kv
    obtain ⟨vref, vty, ven, vit, vone, vprops, vreq, vall⟩ := v
    simp only [importsScan, List.foldr_cons]
    rw [ih]
    congr 1
    simp only [Schema.ref, Schema.type, Schema.items]
    cases vit with
    | none => rfl
    | some item =>
      obtain ⟨itref, itty, iten, itit, itone, itprops, itreq, itall⟩ := item
      simp only [Schema.ref]

theorem importsList_eq_claim (d : Schema) : importsList d = claimRefNames d := by
  obtain ⟨ref, ty, en, it, one, props, req, all⟩ := d
  cases props with
  | none => rfl
  | some ps => exact importsScan_eq_claim ps

/-- Definition with two properties referencing `Pet` (one directly, one
through array items) and one referencing `Tag`. -/
def exImpDef : Schema :=
  objS [("a", refS ("#/definitions/Pet")), ("b", refS ("#/definitions/Tag")),
        ("c", arrS (refS ("#/definitions/Pet")))]

/-- C7: the import names feeding the generated import statements are
exactly the names referenced by the direct properties via `$ref` or via
array items' `$ref`, de-duplicated with the earliest occurrence kept and
insertion order preserved; in particular two fields referencing `Pet`
contribute that name once, ahead of the later `Tag`. -/
theorem importNames_spec (d : Schema) :
    importNames d = dedupKeepFirst (claimRefNames d)
  ∧ (importNames d).Nodup
  ∧ (∀ x, x ∈ importNames d ↔ x ∈ claimRefNames d)
  ∧ List.Sublist (importNames d) (claimRefNames d)
  ∧ importsList exImpDef = [some ("Pet"), some ("Tag"), some ("Pet")]
  ∧ importNames exImpDef = [some ("Pet"), some ("Tag")]
  ∧ importTemplates (importsList exImpDef) =
      "import type \x7b Pet \x7d from './Pet';\nimport type \x7b Tag \x7d from './Tag';" := by
  have he := importsList_eq_claim d
  refine ⟨by rw [importNames, he], dedupSeen_nodup _ _, ?_, ?_, rfl, rfl, rfl⟩
  · intro x
    rw [importNames, he]
    have h := dedupSeen_mem x (claimRefNames d) []
    simpa [dedupKeepFirst] using h
  · rw [importNames, he]
    exact dedupSeen_sublist _ _

/-! ## Helper lemmas: the per-property fold and `Object.assign` -/

theorem synthProps_spec (cfg : Cfg) (req : Option (List String))
    (ps : List (String × Schema)) (tmap : String × Schema → Option String)
    (h : ∀ kv ∈ ps, typeFor cfg kv.2 = .ok (tmap kv)) :
    synthProps cfg req ps =
      .ok (ps.map (fun kv => (propertyKeyForDefinition cfg kv.1 req, tmap kv))) := by
  induction ps with
  | nil => rfl
  | cons kv rest ih =>
    obtain ⟨k, v⟩ := kv
    have hv : typeFor cfg v = .ok (tmap (k, v)) := h (k, v) (List.mem_cons_self _ _)
    rw [synthProps_cons, hv, ih (fun kv hkv => h kv (List.mem_cons_of_mem _ hkv))]
    rfl

theorem assignMerge_of_nodup (l : List (String × Option String))
    (h : (l.map Prod.fst).Nodup) : assignMerge l = l := by
  suffices key : ∀ acc, ((acc ++ l).map Prod.fst).Nodup → l.foldl jsAssignOne acc = acc ++ l by
    simpa using key [] (by simpa using h)
  clear h
  induction l with
  | nil => intro acc _; simp [assignMerge]
  | cons kv rest ih =>
    intro acc hacc
    have hnotin : kv.1 ∉ acc.map Prod.fst := by
      intro hmem
      rw [List.map_append] at hacc
      rcases List.nodup_append.mp hacc with ⟨_, _, hdisj⟩
      exact hdisj hmem (by simp)
    have hany : acc.any (fun e => e.1 == kv.1) = false := by
      rw [List.any_eq_false]
      intro x hx hbeq
      exact hnotin (by
        have : x.1 = kv.1 := by simpa using hbeq
        exact this ▸ List.mem_map_of_mem Prod.fst hx)
    have hstep : jsAssignOne acc kv = acc ++ [kv] := by
      simp [jsAssignOne, hany]
    simp only [List.foldl_cons, hstep]
    have hk : (((acc ++ [kv]) ++ rest).map Prod.fst).Nodup := by
      simpa [List.append_assoc] using hacc
    have := ih (acc ++ [kv]) hk
    simpa [List.append_assoc] using this

/-! ## Claim C1 -/

/-- The key rule as the claim words it: with `checkRequired` set, a `?`
suffix exactly when the property name is not in the `required` list
(absent list meaning no name is required). -/
def claimKey (cfg : Cfg) (k : String) (req : Option (List String)) : String :=
  if cfg.checkRequired then (if k ∈ req.getD [] then k else k ++ "?") else k

theorem claimKey_eq (cfg : Cfg) (k : String) (req : Option (List String)) :
    claimKey cfg k req = propertyKeyForDefinition cfg k req := by
  cases hcr : cfg.checkRequired
  · simp [claimKey, propertyKeyForDefinition, hcr]
  · cases req with
    | none => simp [claimKey, propertyKeyForDefinition, hcr, isRequired]
    | some l =>
      by_cases hk : k ∈ l
      · simp [claimKey, propertyKeyForDefinition, hcr, isRequired, hk]
      · simp [claimKey, propertyKeyForDefinition, hcr, isRequired, hk]

/-- The object schema of the spec's example, without a `required`
list. -/
def exPet : Schema := objS [("id", primS ("integer")), ("name", primS ("string"))]

/-- The same object schema with `required: [id]`. -/
def exPetReq : Schema :=
  objReqS [("id", primS ("integer")), ("name", primS ("string"))] ["id"]

/-- C1: an object schema node (no `allOf`, no `$ref`, type absent or
`object`) with a properties map produces one mapping entry per property
in the map's key order, each value synthesized by the Type Synthesizer,
with the key given by the claim's rule: bare when `checkRequired` is
off, and `?`-suffixed exactly when the name is missing from the
`required` list when it is on.  The two spec examples are included. -/
theorem propertiesList_object_spec (cfg : Cfg) (en : Option (List String))
    (it : Option Schema) (one : Option (List Schema)) (ty : Option String)
    (ps : List (String × Schema)) (req : Option (List String))
    (tmap : String × Schema → Option String)
    (hty : ty = none ∨ ty = some ("object"))
    (hvals : ∀ kv ∈ ps, typeFor cfg kv.2 = .ok (tmap kv))
    (hkeys : (ps.map (fun kv => claimKey cfg kv.1 req)).Nodup) :
    propertiesList cfg (.mk none ty en it one (some ps) req none) =
      .ok (.obj (ps.map (fun kv => (claimKey cfg kv.1 req, tmap kv))))
  ∧ propertiesList ⟨false, false⟩ exPet =
      .ok (.obj [("id", some ("number")), ("name", some ("string"))])
  ∧ propertiesList ⟨true, false⟩ exPetReq =
      .ok (.obj [("id", some ("number")), ("name?", some ("string"))]) := by
  have hfun : (fun kv : String × Schema => claimKey cfg kv.1 req) =
      (fun kv : String × Schema => propertyKeyForDefinition cfg kv.1 req) :=
    funext (fun kv => claimKey_eq cfg kv.1 req)
  have hmain : propertiesList cfg (.mk none ty en it one (some ps) req none) =
      .ok (.obj (ps.map (fun kv => (claimKey cfg kv.1 req, tmap kv)))) := by
    have hkeys' : (ps.map (fun kv => propertyKeyForDefinition cfg kv.1 req)).Nodup := by
      rwa [hfun] at hkeys
    have hk2 : ((ps.map (fun kv =>
        (propertyKeyForDefinition cfg kv.1 req, tmap kv))).map Prod.fst).Nodup := by
      simpa [List.map_map, Function.comp] using hkeys'
    rw [propertiesList_object cfg ty en it one ps req hty]
    by_cases hemp : ps.isEmpty
    · have hnil : ps = [] := by
        cases ps with
        | nil => rfl
        | cons a l => simp [List.isEmpty] at hemp
      subst hnil
      simp
    · rw [if_neg hemp, synthProps_spec cfg req ps tmap hvals]
      show Except.ok (PropRes.obj (assignMerge (ps.map (fun kv =>
          (propertyKeyForDefinition cfg kv.1 req, tmap kv))))) =
        Except.ok (PropRes.obj (ps.map (fun kv => (claimKey cfg kv.1 req, tmap kv))))
      rw [assignMerge_of_nodup _ hk2]
      simp only [claimKey_eq]
  exact ⟨hmain, rfl, rfl⟩

/-- Witness for C1 at the spec's own object schema with `checkRequired`
on. -/
theorem propertiesList_object_spec_witness :
    propertiesList ⟨true, false⟩
        (.mk none (some ("object")) none none none
          (some [("id", primS ("integer")), ("name", primS ("string"))])
          (some ["id"]) none) =
      .ok (.obj ([("id", primS ("integer")), ("name", primS ("string"))].map
        (fun kv => (claimKey ⟨true, false⟩ kv.1 (some ["id"]),
          typeMappingOpt kv.2.type)))) ∧
    propertiesList ⟨false, false⟩ exPet =
      .ok (.obj [("id", some ("number")), ("name", some ("string"))]) ∧
    propertiesList ⟨true, false⟩ exPetReq =
      .ok (.obj [("id", some ("number")), ("name?", some ("string"))]) := by
  refine propertiesList_object_spec ⟨true, false⟩ none none none (some ("object"))
    [("id", primS ("integer")), ("name", primS ("string"))] (some ["id"])
    (fun kv => typeMappingOpt kv.2.type) (Or.inr rfl) ?_ (by decide)
  intro kv hkv
  simp only [List.mem_cons, List.mem_singleton, List.not_mem_nil, or_false] at hkv
  rcases hkv with rfl | rfl
  · rfl
  · rfl

/-! ## Claim C2 -/

/-- The shape of an `allOf` member for the claim: a `$ref` marker with a
truthy resolved name, or a (non-ref) object mapping. -/
def allOfShape : PropRes → Bool
  | .refMark (some r) => r != ""
  | .obj _ => true
  | _ => false

/-- The rendering of one member exactly as the emitter performs it: the
intersection operand for a truthy `$ref` marker, otherwise the
serialized (and, under `exact`, exact-wrapped) object literal. -/
def jsRender (cfg : Cfg) (p : PropRes) : String :=
  if refTruthyP p then "& " ++ refNameP p
  else if cfg.exact then withExact ((jsonStringify p).getD (""))
  else (jsonStringify p).getD ("")

theorem renderElem_shape (cfg : Cfg) (p : PropRes) (h : allOfShape p = true) :
    renderElem cfg p = .ok (some (jsRender cfg p)) := by
  cases p with
  | refMark name =>
    cases name with
    | none => simp [allOfShape] at h
    | some r =>
      have hr : (r != "") = true := by simpa [allOfShape] using h
      simp [renderElem, jsRender, refTruthyP, refNameP, hr]
  | obj es =>
    simp [renderElem, jsRender, refTruthyP, jsonStringify]
  | typ s => simp [allOfShape] at h
  | list ms => simp [allOfShape] at h

theorem renderElems_shape (cfg : Cfg) (ms : List PropRes)
    (h : ∀ m ∈ ms, allOfShape m = true) :
    renderElems cfg ms = .ok (ms.map (fun m => some (jsRender cfg m))) := by
  induction ms with
  | nil => rfl
  | cons m rest ih =>
    rw [renderElems, renderElem_shape cfg m (h m (List.mem_cons_self _ _)),
      ih (fun x hx => h x (List.mem_cons_of_mem _ hx))]
    rfl

theorem sortJsOpt_somes (l : List String) :
    sortJsOpt (l.map some) = (sortJs l).map some := by
  have h1 : (l.map some).filterMap id = l := by
    induction l with
    | nil => rfl
    | cons a t ih => simp [List.filterMap_cons, ih]
  have h2 : (l.map some).countP (fun o => o.isNone) = 0 := by
    induction l with
    | nil => rfl
    | cons a t ih => simp [List.countP_cons, ih]
  simp [sortJsOpt, h1, h2]

theorem joinSp_somes (l : List String) :
    joinSp (l.map some) = String.intercalate " " l := by
  have hc : ((fun o : Option String => o.getD ("")) ∘ some) = (fun v : String => v) := rfl
  simp [joinSp, List.map_map, hc]

/-- The spec's `allOf` composition example. -/
def exAllOf : Schema :=
  allOfS [refS ("#/definitions/Base"), objS [("extra", primS ("string"))]]

/-- C2: for an `allOf` member list of `$ref` markers and concrete object
mappings, the emitter renders a truthy marker as the intersection
operand `& Name` and an object as its own literal, sorts the rendered
members so that every non-ref operand precedes every ref operand
(modelling the engine's sort behaviour with this comparator - see
`sortJs`), and joins with one space; the spec's example produces the
concrete object first and the ref-intersection last
(`{extra:string} & Base` before the external formatter's
whitespace). -/
theorem allOf_emitter_spec (cfg : Cfg) (ms : List PropRes)
    (h : ∀ m ∈ ms, allOfShape m = true) :
    propertiesTemplate cfg (.list ms) =
      .ok (some (String.intercalate " " (sortJs (ms.map (jsRender cfg)))))
  ∧ (∀ r : String, r ≠ "" → jsRender cfg (.refMark (some r)) = "& " ++ r)
  ∧ (∀ l : List String, ∃ A B, sortJs l = A ++ B ∧
      (∀ x ∈ A, ampHead x = false) ∧ (∀ x ∈ B, ampHead x = true))
  ∧ propertiesList ⟨false, false⟩ exAllOf =
      .ok (.list [.refMark (some ("Base")), .obj [("extra", some ("string"))]])
  ∧ typeExprText ⟨false, false⟩
      (.list [.refMark (some ("Base")), .obj [("extra", some ("string"))]]) =
      .ok ("\x7bextra:string\x7d & Base") := by
  refine ⟨?_, ?_, sortJs_partition, ?_, ?_⟩
  · rw [propertiesTemplate, renderElems_shape cfg ms h]
    rw [show ms.map (fun m => some (jsRender cfg m)) = (ms.map (jsRender cfg)).map some by
      simp [List.map_map, Function.comp]]
    show Except.ok (some (joinSp (sortJsOpt ((ms.map (jsRender cfg)).map some)))) =
      Except.ok (some (String.intercalate " " (sortJs (ms.map (jsRender cfg)))))
    rw [sortJsOpt_somes, joinSp_somes]
  · intro r hr
    simp [jsRender, refTruthyP, refNameP, hr]
  · rfl
  · rfl

/-- Witness for C2 at the spec's example members. -/
theorem allOf_emitter_spec_witness :
    propertiesTemplate ⟨false, false⟩
        (.list [.refMark (some ("Base")), .obj [("extra", some ("string"))]]) =
      .ok (some (String.intercalate " "
        (sortJs ([PropRes.refMark (some ("Base")),
          PropRes.obj [("extra", some ("string"))]].map (jsRender ⟨false, false⟩)))))
  ∧ (∀ r : String, r ≠ "" → jsRender ⟨false, false⟩ (.refMark (some r)) = "& " ++ r)
  ∧ (∀ l : List String, ∃ A B, sortJs l = A ++ B ∧
      (∀ x ∈ A, ampHead x = false) ∧ (∀ x ∈ B, ampHead x = true))
  ∧ propertiesList ⟨false, false⟩ exAllOf =
      .ok (.list [.refMark (some ("Base")), .obj [("extra", some ("string"))]])
  ∧ typeExprText ⟨false, false⟩
      (.list [.refMark (some ("Base")), .obj [("extra", some ("string"))]]) =
      .ok ("\x7bextra:string\x7d & Base") :=
  allOf_emitter_spec ⟨false, false⟩
    [PropRes.refMark (some ("Base")), PropRes.obj [("extra", some ("string"))]]
    (by decide)

/-! ## Claim C10 -/

/-- The definition holding an enum literal that itself contains a double
quote. -/
def exQuoteDef : Schema := objS [("k", enumS ["say \"hi\""])]

/-- C10: the type-expression part of a generated declaration contains no
double-quote character — the emitter strips every one after
serialization; the concrete enum value `say "hi"` comes out with its
quote characters silently deleted (the serializer's escaping backslashes
remain). -/
theorem expr_quote_free (cfg : Cfg) (p : PropRes) (s : String)
    (h : typeExprText cfg p = .ok s) :
    '"' ∉ s.toList
  ∧ propertiesList ⟨false, false⟩ exQuoteDef = .ok (.obj [("k", some ("'say \"hi\"'"))])
  ∧ typeExprText ⟨false, false⟩ (.obj [("k", some ("'say \"hi\"'"))]) =
      .ok ("\x7bk:'say \\hi\\'\x7d") := by
  refine ⟨?_, ?_, ?_⟩
  · rw [typeExprText] at h
    cases hpt : propertiesTemplate cfg p with
    | error e => rw [hpt] at h; cases h
    | ok o =>
      rw [hpt] at h
      cases o with
      | none => cases h
      | some str =>
        have hs : s = stripQuotes str := by
          cases h; rfl
        subst hs
        intro hmem
        simp only [stripQuotes] at hmem
        rcases List.mem_filter.mp hmem with ⟨_, habs⟩
        simp at habs
  · rfl
  · simp [typeExprText, propertiesTemplate, jsonStringify, objEntriesCh, joinComma,
      jsQuoteCh, escList, jsEsc, stripQuotes]

/-- Witness for C10 at the concrete quote-bearing enum expression. -/
theorem expr_quote_free_witness :
    '"' ∉ ("\x7bk:'say \\hi\\'\x7d" : String).toList
  ∧ propertiesList ⟨false, false⟩ exQuoteDef = .ok (.obj [("k", some ("'say \"hi\"'"))])
  ∧ typeExprText ⟨false, false⟩ (.obj [("k", some ("'say \"hi\"'"))]) =
      .ok ("\x7bk:'say \\hi\\'\x7d") :=
  expr_quote_free ⟨false, false⟩ (.obj [("k", some ("'say \"hi\"'"))])
    ("\x7bk:'say \\hi\\'\x7d")
    (by simp [typeExprText, propertiesTemplate, jsonStringify, objEntriesCh, joinComma,
      jsQuoteCh, escList, jsEsc, stripQuotes])

/-! ## Claim C3 (corrected): helper lemmas on the rewrite passes -/

/-- A character that cannot interfere with brace rewriting or quote
stripping: not a brace, not the marker, not a quote, not a backslash. -/
def plainChar (c : Char) : Prop :=
  c ≠ '\x7b' ∧ c ≠ '\x7d' ∧ c ≠ '|' ∧ c ≠ '"' ∧ c ≠ '\\'

instance (c : Char) : Decidable (plainChar c) := by
  unfold plainChar; infer_instance

/-- Every character of the string is plain. -/
def plainStr (s : String) : Prop := ∀ c ∈ s.toList, plainChar c

instance (s : String) : Decidable (plainStr s) := by
  unfold plainStr; infer_instance

theorem escList_id (l : List Char) (h : ∀ c ∈ l, c ≠ '"' ∧ c ≠ '\\') :
    escList l = l := by
  induction l with
  | nil => rfl
  | cons c t ih =>
    have hc := h c (List.mem_cons_self _ _)
    simp only [escList, jsEsc, if_neg hc.2, if_neg hc.1]
    rw [ih (fun d hd => h d (List.mem_cons_of_mem _ hd))]
    rfl

theorem jsQuoteCh_plain (s : String) (h : plainStr s) :
    jsQuoteCh s = '"' :: s.toList ++ ['"'] := by
  rw [jsQuoteCh, escList_id]
  intro c hc
  exact ⟨(h c hc).2.2.2.1, (h c hc).2.2.2.2⟩

theorem exOpen_id (l : List Char) (h : '\x7b' ∉ l) : exOpen l = l := by
  induction l with
  | nil => rfl
  | cons c t ih =>
    cases t with
    | nil => rfl
    | cons d r =>
      have hc : c ≠ '\x7b' := fun hh => h (hh ▸ List.mem_cons_self _ _)
      rw [exOpen, if_neg (fun hand => hc hand.1),
        ih (fun hm => h (List.mem_cons_of_mem c hm))]

theorem exClose_append (l : List Char) (h : '\x7d' ∉ l) :
    exClose (l ++ ['"', '\x7d']) = l ++ ['|', '\x7d'] := by
  induction l with
  | nil => rfl
  | cons c t ih =>
    cases t with
    | nil => rfl
    | cons d r =>
      have hd : d ≠ '\x7d' :=
        fun hh => h (hh ▸ List.mem_cons_of_mem c (List.mem_cons_self _ _))
      rw [show ((c :: d :: r) ++ ['"', '\x7d'] : List Char) =
        c :: d :: (r ++ ['"', '\x7d']) from by simp]
      rw [exClose, if_neg (fun hand => hd hand.1)]
      have := ih (fun hm => h (List.mem_cons_of_mem c hm))
      rw [show ((d :: r) ++ ['"', '\x7d'] : List Char) =
        d :: (r ++ ['"', '\x7d']) from by simp] at this
      rw [this]
      simp

/-- Quote filtering leaves a quote-free list unchanged. -/
theorem filter_quote_id (l : List Char) (h : ∀ c ∈ l, c ≠ '"') :
    l.filter (fun c => c != '"') = l := by
  induction l with
  | nil => rfl
  | cons c t ih =>
    have hc : (c != '"') = true := by
      simpa using h c (List.mem_cons_self _ _)
    simp only [List.filter_cons, hc, if_true]
    rw [ih (fun d hd => h d (List.mem_cons_of_mem _ hd))]

/-! ## Claim C3 counterexample -/

/-- C3 counterexample: the rendered empty object literal under `exact`
is rewritten to `\x7b|` — the closing brace itself is the character
consumed by the first rewrite, so no marker is inserted inside a closing
brace and no closing delimiter survives, contradicting the claim that
the braces' neighbouring content is preserved and both outermost
delimiters receive an inner marker. -/
theorem withExact_empty_object_cx :
    propertiesTemplate ⟨false, true⟩ (.obj []) = .ok (some ("\x7b|"))
  ∧ withExact ("\x7b\x7d") = "\x7b|"
  ∧ ("\x7b|" : String) ≠ "\x7b|\x7d"
  ∧ '\x7d' ∉ ("\x7b|" : String).toList := by
  refine ⟨?_, rfl, by decide, by decide⟩
  simp [propertiesTemplate, jsonStringify, objEntriesCh, joinComma, withExact,
    exOpen, exClose]

theorem objEntriesCh_all_some (es : List (String × String)) :
    objEntriesCh (es.map (fun kv => (kv.1, some kv.2))) =
      es.map (fun kv => jsQuoteCh kv.1 ++ ':' :: jsQuoteCh kv.2) := by
  induction es with
  | nil => rfl
  | cons kv rest ih => simp [objEntriesCh, ih]

/-- Structure of the serialized middle of a nonempty plain object: it
starts and ends with a quote, contains no braces, and filtering out the
quotes leaves the plain `key:value` rendering. -/
theorem objEntries_middle (es : List (String × String)) (hne : es ≠ [])
    (hcl : ∀ kv ∈ es, plainStr kv.1 ∧ plainStr kv.2) :
    ∃ mid : List Char,
      joinComma (es.map (fun kv => jsQuoteCh kv.1 ++ ':' :: jsQuoteCh kv.2)) =
        '"' :: mid ++ ['"']
    ∧ (∀ c ∈ mid, c ≠ '\x7b' ∧ c ≠ '\x7d')
    ∧ mid.filter (fun c => c != '"') =
        joinComma (es.map (fun kv => kv.1.toList ++ ':' :: kv.2.toList)) := by
  induction es with
  | nil => exact absurd rfl hne
  | cons kv rest ih =>
    obtain ⟨hk, hv⟩ := hcl kv (List.mem_cons_self _ _)
    have hkq : ∀ c ∈ kv.1.toList, c ≠ '"' := fun c hc => (hk c hc).2.2.2.1
    have hvq : ∀ c ∈ kv.2.toList, c ≠ '"' := fun c hc => (hv c hc).2.2.2.1
    cases rest with
    | nil =>
      refine ⟨kv.1.toList ++ '"' :: ':' :: '"' :: kv.2.toList, ?_, ?_, ?_⟩
      · simp [joinComma, jsQuoteCh_plain _ hk, jsQuoteCh_plain _ hv]
      · intro c hc
        rcases List.mem_append.mp hc with h | h
        · exact ⟨(hk c h).1, (hk c h).2.1⟩
        · rcases List.mem_cons.mp h with rfl | h
          · exact ⟨by decide, by decide⟩
          · rcases List.mem_cons.mp h with rfl | h
            · exact ⟨by decide, by decide⟩
            · rcases List.mem_cons.mp h with rfl | h
              · exact ⟨by decide, by decide⟩
              · exact ⟨(hv c h).1, (hv c h).2.1⟩
      · simp only [List.filter_append, List.filter_cons, joinComma]
        rw [filter_quote_id _ hkq, filter_quote_id _ hvq]
        simp
    | cons kv2 rest2 =>
      obtain ⟨mid', hM, hMb, hMf⟩ :=
        ih (by simp) (fun x hx => hcl x (List.mem_cons_of_mem _ hx))
      refine ⟨kv.1.toList ++
          ('"' :: ':' :: '"' :: (kv.2.toList ++ ('"' :: ',' :: '"' :: mid'))),
        ?_, ?_, ?_⟩
      · simp only [List.map_cons] at hM ⊢
        rw [joinComma, hM, jsQuoteCh_plain _ hk, jsQuoteCh_plain _ hv]
        simp
      · intro c hc
        rcases List.mem_append.mp hc with h | h
        · exact ⟨(hk c h).1, (hk c h).2.1⟩
        · rcases List.mem_cons.mp h with rfl | h
          · exact ⟨by decide, by decide⟩
          · rcases List.mem_cons.mp h with rfl | h
            · exact ⟨by decide, by decide⟩
            · rcases List.mem_cons.mp h with rfl | h
              · exact ⟨by decide, by decide⟩
              · rcases List.mem_append.mp h with h | h
                · exact ⟨(hv c h).1, (hv c h).2.1⟩
                · rcases List.mem_cons.mp h with rfl | h
                  · exact ⟨by decide, by decide⟩
                  · rcases List.mem_cons.mp h with rfl | h
                    · exact ⟨by decide, by decide⟩
                    · rcases List.mem_cons.mp h with rfl | h
                      · exact ⟨by decide, by decide⟩
                      · exact hMb c h
      · simp only [List.filter_append, List.filter_cons]
        rw [filter_quote_id _ hkq, filter_quote_id _ hvq, hMf]
        simp [joinComma]

/-! ## Claim C3 (amended) -/

/-- C3 (amended): under `exact`, the rewrite replaces each brace
together with its neighbouring character; for the serialized nonempty
plain object literal those neighbours are the serializer's quote
characters, which the emitter's quote strip would delete anyway, so the
post-strip type expression carries the marker immediately inside both
outermost braces with the content preserved — while a ref-based
intersection operand is left unmodified.  (For the empty literal the
closing brace itself is consumed; see the counterexample.) -/
theorem exact_object_rewrite (b : Bool) (es : List (String × String)) (hne : es ≠ [])
    (hcl : ∀ kv ∈ es, plainStr kv.1 ∧ plainStr kv.2) :
    typeExprText ⟨b, true⟩ (.obj (es.map (fun kv => (kv.1, some kv.2)))) =
      .ok (String.mk ('\x7b' :: '|' ::
        joinComma (es.map (fun kv => kv.1.toList ++ ':' :: kv.2.toList)) ++ ['|', '\x7d']))
  ∧ (∀ r : String, r ≠ "" →
      renderElem ⟨b, true⟩ (.refMark (some r)) = .ok (some ("& " ++ r))) := by
  constructor
  · obtain ⟨mid, hM, hMb, hMf⟩ := objEntries_middle es hne hcl
    have hpt : propertiesTemplate ⟨b, true⟩ (.obj (es.map (fun kv => (kv.1, some kv.2)))) =
        .ok (some (withExact (String.mk ('\x7b' ::
          joinComma (objEntriesCh (es.map (fun kv => (kv.1, some kv.2)))) ++ ['\x7d'])))) :=
      rfl
    rw [typeExprText, hpt]
    rw [objEntriesCh_all_some, hM]
    have hshape : ('\x7b' :: ('"' :: mid ++ ['"']) ++ ['\x7d'] : List Char) =
        '\x7b' :: '"' :: (mid ++ ['"', '\x7d']) := by simp
    have hopen : exOpen ('\x7b' :: '"' :: (mid ++ ['"', '\x7d'])) =
        '\x7b' :: '|' :: (mid ++ ['"', '\x7d']) := by
      rw [exOpen, if_pos ⟨rfl, by decide⟩, exOpen_id]
      intro hmem
      rcases List.mem_append.mp hmem with h | h
      · exact ((hMb _ h).1 rfl)
      · rcases List.mem_cons.mp h with h' | h'
        · exact absurd h'.symm (by decide)
        · rcases List.mem_cons.mp h' with h'' | h''
          · exact absurd h''.symm (by decide)
          · cases h''
    have hclose : exClose ('\x7b' :: '|' :: (mid ++ ['"', '\x7d'])) =
        '\x7b' :: '|' :: mid ++ ['|', '\x7d'] := by
      have hnb : '\x7d' ∉ ('\x7b' :: '|' :: mid : List Char) := by
        intro hmem
        rcases List.mem_cons.mp hmem with h | h
        · exact absurd h.symm (by decide)
        · rcases List.mem_cons.mp h with h' | h'
          · exact absurd h'.symm (by decide)
          · exact ((hMb _ h').2 rfl)
      have := exClose_append ('\x7b' :: '|' :: mid) hnb
      simpa using this
    have hfin : (String.mk ('\x7b' :: '|' :: mid ++ ['|', '\x7d'])).toList.filter
        (fun c => c != '"') =
        '\x7b' :: '|' :: joinComma (es.map (fun kv => kv.1.toList ++ ':' :: kv.2.toList)) ++
          ['|', '\x7d'] := by
      show ('\x7b' :: '|' :: mid ++ ['|', '\x7d'] : List Char).filter (fun c => c != '"') = _
      simp only [List.filter_cons, List.filter_append]
      rw [hMf]
      simp
    rw [withExact]
    show Except.ok (stripQuotes (String.mk (exClose (exOpen
      (String.mk ('\x7b' :: ('"' :: mid ++ ['"']) ++ ['\x7d'])).toList)))) = _
    rw [show (String.mk ('\x7b' :: ('"' :: mid ++ ['"']) ++ ['\x7d'])).toList =
      '\x7b' :: ('"' :: mid ++ ['"']) ++ ['\x7d'] from rfl]
    rw [hshape, hopen, hclose, stripQuotes, hfin]
  · intro r hr
    simp [renderElem, refTruthyP, refNameP, hr]

/-- Witness for C3 at the spec's two-field object and a ref operand. -/
theorem exact_object_rewrite_witness :
    typeExprText ⟨false, true⟩
        (.obj ([("a", "number"), ("b", "string")].map (fun kv => (kv.1, some kv.2)))) =
      .ok (String.mk ('\x7b' :: '|' ::
        joinComma ([("a", "number"), ("b", "string")].map
          (fun kv => kv.1.toList ++ ':' :: kv.2.toList)) ++ ['|', '\x7d']))
  ∧ (∀ r : String, r ≠ "" →
      renderElem ⟨false, true⟩ (.refMark (some r)) = .ok (some ("& " ++ r))) :=
  exact_object_rewrite false [("a", "number"), ("b", "string")] (by decide) (by decide)

end S2F
